import Mathlib

/-!
ncbi-tool-search: accession lookup against a per-prefix catalog index.

A shallow embedding of `prefix_search.go` and the helpers of `util.go` it calls.

* Go strings are lists of characters (`Str`); for the ASCII text the tool
  processes, bytes and characters coincide, so `len` is `List.length`.
* The mutable parts of `Context` (the `prefixCache` map, the lines written to
  `outFile`) are threaded through every function as an explicit state; the
  external shell is a parameter `Shell`, and the commands handed to it are
  recorded in `Context.commands`.
* A function result is a `Run`: a normal return, a `log.Fatal`, a runtime panic
  (slice or index out of range), or exhausted fuel for a loop that has not
  finished.
* Go's `int` is 64 bits wide: `Atoi` rejects values outside that range and the
  loop counter of `findRange` wraps around.
* The parameter `prefix` of the source is written `pfx`, `prefix` being a
  reserved word.
-/

namespace NcbiToolSearch

/-! ## Strings -/

/-- A Go string, as the list of its characters. -/
abbrev Str := List Char

/-- Go `strings.Contains(s, substr)`: `substr` occurs somewhere inside `s`. -/
def Contains : Str → Str → Bool
  | [], substr => substr.isEmpty
  | c :: cs, substr => substr.isPrefixOf (c :: cs) || Contains cs substr

/-- Worker of `Split`: scans `s` from the left; `skip` counts the characters of
a separator occurrence still to be consumed, `cur` is the current piece,
reversed. -/
def splitAux (sep : Str) : Str → Nat → Str → List Str
  | [], _, cur => [cur.reverse]
  | _ :: cs, skip + 1, cur => splitAux sep cs skip cur
  | c :: cs, 0, cur =>
    if sep.isPrefixOf (c :: cs) then cur.reverse :: splitAux sep cs (sep.length - 1) []
    else splitAux sep cs 0 (c :: cur)

/-- Go `strings.Split(s, sep)` for a non-empty separator: the pieces between the
leftmost non-overlapping occurrences of `sep`. -/
def Split (s sep : Str) : List Str := splitAux sep s 0 []

/-- The padding of `fmt`'s `%-Ns` and `%-Nd` verbs: left-justified, filled with
spaces on the right up to `width` characters. -/
def padRight (width : Nat) (s : Str) : Str :=
  s ++ List.replicate (width - s.length) (Char.ofNat 32)

/-! ## Errors and integers -/

/-- Go error values. `wrapped msg cause` stands for
`errors.New(msg + " " + cause.Error())`. -/
inductive GoError where
  | invalidSyntax (input : Str)
  | outOfRange (input : Str)
  | command (msg : Str)
  | wrapped (msg : Str) (cause : GoError)
  deriving DecidableEq

/-- The largest value of Go's 64-bit `int`. -/
def maxInt : Int := 9223372036854775807

/-- The smallest value of Go's 64-bit `int`. -/
def minInt : Int := -9223372036854775808

/-- The value of a decimal digit character. -/
def digitValue (c : Char) : Option Nat :=
  if 48 ≤ c.toNat ∧ c.toNat ≤ 57 then some (c.toNat - 48) else none

/-- The largest value of Go's `uint64`. -/
def maxUint : Nat := 18446744073709551615

/-- Go `strconv.ParseUint` in base 10 with 64 bits, continuing from the value
`acc`: reads decimal digits, most significant first; a character that is no
digit is a syntax error and a value beyond `maxUint` a range error, whichever
the scan meets first. The error is returned as its constructor, to be applied
to the whole input. -/
def parseUint : Str → Nat → Except (Str → GoError) Nat
  | [], acc => .ok acc
  | c :: cs, acc =>
    match digitValue c with
    | none => .error GoError.invalidSyntax
    | some d =>
      if maxUint < acc * 10 + d then .error GoError.outOfRange
      else parseUint cs (acc * 10 + d)

/-- Go `strconv.Atoi`: an optional sign followed by at least one decimal digit,
the value within the range of `int`. -/
def Atoi (s : Str) : Except GoError Int :=
  match s with
  | [] => .error (.invalidSyntax s)
  | c :: cs =>
    let digits := if c = '-' ∨ c = '+' then cs else s
    if digits = [] then .error (.invalidSyntax s)
    else
      match parseUint digits 0 with
      | .error mk => .error (mk s)
      | .ok n =>
        if c = '-' then
          if (n : Int) ≤ -minInt then .ok (-(n : Int)) else .error (.outOfRange s)
        else
          if (n : Int) ≤ maxInt then .ok (n : Int) else .error (.outOfRange s)

/-- The character of a decimal digit. -/
def digitChar (d : Nat) : Char := Char.ofNat (48 + d)

/-- Worker of `natDigits`: pushes the digits of `n` in front of `acc`, least
significant digit first. -/
def natDigitsAux : Nat → Nat → Str → Str
  | 0, _, acc => acc
  | fuel + 1, n, acc =>
    if n / 10 = 0 then digitChar (n % 10) :: acc
    else natDigitsAux fuel (n / 10) (digitChar (n % 10) :: acc)

/-- The decimal digits of a natural number. -/
def natDigits (n : Nat) : Str := natDigitsAux (n + 1) n []

/-- Go `strconv.Itoa`. -/
def Itoa (i : Int) : Str :=
  if i < 0 then '-' :: natDigits i.natAbs else natDigits i.natAbs

/-- The successor of a Go `int`, wrapping around at `maxInt` (the `i++` of a
loop counter). -/
def incInt (i : Int) : Int := if i = maxInt then minInt else i + 1

/-! ## Outcomes -/

/-- How a call ends: `ok` is a normal return, `fatal` a `log.Fatal`, `crash` a
runtime panic (slice or index out of range), `timeout` exhausted fuel. -/
inductive Run (α : Type) where
  | ok (val : α)
  | fatal
  | crash
  | timeout
  deriving DecidableEq

/-! ## util.go -/

/-- The helper `newErr` of util.go: `errors.New(input + " " + err.Error())`. -/
def newErr (input : Str) (err : GoError) : GoError := .wrapped input err

/-- The helper `handle` of util.go: appends a period to `input` when it has
none, then wraps `err`. The callers pass non-empty literals. -/
def handle (input : Str) (err : GoError) : GoError :=
  .wrapped (if input.getLast? = some '.' then input else input ++ ".".toList) err

/-! ## State -/

/-- The struct `prefixResult`: the ordered tokens of one prefix and the Go map
from a token to its file snippet, as an association list whose first binding
of a key is the current one. -/
structure prefixResult where
  accessionNums : List Str
  valueToFile : List (Str × Str)
  deriving DecidableEq

/-- Reading a Go `map[string]string`: the zero value for a missing key. -/
def mapGet (m : List (Str × Str)) (key : Str) : Str := (m.lookup key).getD []

/-- Writing a Go `map[string]string`: the new binding shadows older ones. -/
def mapSet (m : List (Str × Str)) (key val : Str) : List (Str × Str) := (key, val) :: m

/-- The struct `Context`, with the contents of the cache map and of the output
file, and the commands run by the shell so far. The map is allocated by the
caller (`matchSequencesCaller`). -/
structure Context where
  searchDest : Str
  prefixCache : List (Str × prefixResult)
  outFile : List Str
  commands : List Str
  deriving DecidableEq

/-- The external shell behind `commandWithOutput`: given the number of commands
run before and the command line, the standard output, the standard error and
the error of the run. -/
abbrev Shell := Nat → Str → Str × Str × Option GoError

/-- The function `commandWithOutput` of util.go. -/
def commandWithOutput (sh : Shell) (ctx : Context) (input : Str) :
    (Str × Str × Option GoError) × Context :=
  (sh ctx.commands.length input, { ctx with commands := ctx.commands ++ [input] })

/-- The function `commandVerboseOnErr` of util.go. -/
def commandVerboseOnErr (sh : Shell) (ctx : Context) (input : Str) :
    (Str × Str × Option GoError) × Context :=
  match commandWithOutput sh ctx input with
  | ((stdout, stderr, some err), ctx1) =>
    ((stdout, stderr, some (newErr "Error in running command.".toList err)), ctx1)
  | ((stdout, stderr, none), ctx1) => ((stdout, stderr, none), ctx1)

/-- The function `writeLine`: appends the line to the output file. -/
def writeLine (input : Str) (ctx : Context) : Context :=
  { ctx with outFile := ctx.outFile ++ [input] }

/-! ## prefix_search.go -/

/-- The command line built by `prefixToResults`. -/
def searchCommand (pfx searchDest : Str) : Str :=
  "sift '".toList ++ pfx ++ "' '".toList ++ searchDest ++
    "' -w --binary-skip | sort -k2 -n".toList

/-- The loop of `prefixToResults` over the lines of the search output
(source lines 156-166). -/
def indexLines (searchDest pfx : Str) :
    List Str → List Str → List (Str × Str) → Run (List Str × List (Str × Str))
  | [], accessionNums, valueToFile => .ok (accessionNums, valueToFile)
  | line :: rest, accessionNums, valueToFile =>
    if Contains line ": ".toList then
      match Split line ": ".toList with
      | piece0 :: key :: _ =>
        if piece0.length < searchDest.length + 1 then .crash
        else
          let snip := piece0.drop (searchDest.length + 1)
          if snip.length < pfx.length + 1 then .crash
          else
            let snip1 := snip.take (snip.length - pfx.length - 1)
            indexLines searchDest pfx rest (accessionNums ++ [key]) (mapSet valueToFile key snip1)
      | _ => .crash
    else indexLines searchDest pfx rest accessionNums valueToFile

/-- The function `prefixToResults`. -/
def prefixToResults (sh : Shell) (ctx : Context) (pfx : Str) :
    Run ((prefixResult × Option GoError) × Context) :=
  match ctx.prefixCache.lookup pfx with
  | some res => .ok ((res, none), ctx)
  | none =>
    match commandVerboseOnErr sh ctx (searchCommand pfx ctx.searchDest) with
    | ((_, _, some err), ctx1) =>
      .ok ((⟨[], []⟩, some (handle "Error in calling search utility.".toList err)), ctx1)
    | ((stdout, _, none), ctx1) =>
      let lines := Split stdout [Char.ofNat 10]
      if lines.length = 0 then .ok ((⟨[], []⟩, none), ctx1)
      else
        match indexLines ctx.searchDest pfx lines [] [] with
        | .ok (accessionNums, valueToFile) =>
          let res : prefixResult := ⟨accessionNums, valueToFile⟩
          .ok ((res, none), { ctx1 with prefixCache := (pfx, res) :: ctx1.prefixCache })
        | .fatal => .fatal
        | .crash => .crash
        | .timeout => .timeout

/-- The binary-search loop of `accessionSearch` (source lines 192-223), run for
at most `fuel` iterations from the bounds `i` and `j`; returns the final `i`. -/
def searchLoop (accessionNums : List Str) (targetNum : Int) : Nat → Nat → Nat → Run Nat
  | 0, i, j => if i < j then .timeout else .ok i
  | fuel + 1, i, j =>
    if i < j then
      let h := i + (j - i) / 2
      match accessionNums[h]? with
      | none => .crash
      | some curRange =>
        if Contains curRange "-".toList then
          match (Split curRange "-".toList)[1]? with
          | none => .crash
          | some piece =>
            match Atoi piece with
            | .error _ => .fatal
            | .ok endNum =>
              if endNum < targetNum then searchLoop accessionNums targetNum fuel (h + 1) j
              else searchLoop accessionNums targetNum fuel i h
        else
          match Atoi curRange with
          | .error _ => .fatal
          | .ok curVal =>
            if curVal < targetNum then searchLoop accessionNums targetNum fuel (h + 1) j
            else searchLoop accessionNums targetNum fuel i h
    else .ok i

/-- The result formatting of `accessionSearch` (source lines 225-231) once the
loop has ended at `i`. -/
def formatResult (res : prefixResult) (i : Nat) : Run Str :=
  if i ≠ 0 ∧ i < res.accessionNums.length then
    match res.accessionNums[i]? with
    | none => .crash
    | some tok =>
      let resFile := mapGet res.valueToFile tok
      if resFile.length < 4 then .crash
      else .ok (padRight 13 tok ++ " | ".toList ++ resFile.take (resFile.length - 4))
  else .ok []

/-- The part of `accessionSearch` that works on the index (source lines
189-231): the binary search, given `len(accessionNums)` iterations of fuel,
then the formatting of the result. -/
def searchIndex (res : prefixResult) (targetNum : Int) : Run Str :=
  let n := res.accessionNums.length
  match searchLoop res.accessionNums targetNum n 0 n with
  | .ok i => formatResult res i
  | .fatal => .fatal
  | .crash => .crash
  | .timeout => .timeout

/-- The function `accessionSearch`. -/
def accessionSearch (sh : Shell) (ctx : Context) (pfx : Str) (targetNum : Int) :
    Run ((Str × Option GoError) × Context) :=
  match prefixToResults sh ctx pfx with
  | .ok ((_, some err), ctx1) =>
    .ok (([], some (handle "Error in getting file results for the prefix.".toList err)), ctx1)
  | .ok ((prefixRes, none), ctx1) =>
    match searchIndex prefixRes targetNum with
    | .ok out => .ok ((out, none), ctx1)
    | .fatal => .fatal
    | .crash => .crash
    | .timeout => .timeout
  | .fatal => .fatal
  | .crash => .crash
  | .timeout => .timeout

/-- The function `rangePiece`. -/
def rangePiece (sh : Shell) (ctx : Context) (pfx input : Str) :
    Run ((Int × Str × Option GoError) × Context) :=
  match Atoi input with
  | .error err => .ok ((0, [], some (handle "Error in converting to int.".toList err)), ctx)
  | .ok num =>
    match accessionSearch sh ctx pfx num with
    | .ok ((_, some err), ctx1) =>
      .ok ((0, [], some (handle "Error in accession number search.".toList err)), ctx1)
    | .ok ((res, none), ctx1) => .ok ((num, res, none), ctx1)
    | .fatal => .fatal
    | .crash => .crash
    | .timeout => .timeout

/-- The function `findSingleValue`. -/
def findSingleValue (sh : Shell) (ctx : Context) (pfx toFind : Str) :
    Run (Option GoError × Context) :=
  match Atoi toFind with
  | .error err => .ok (some (handle "Error in converting to int.".toList err), ctx)
  | .ok num =>
    match accessionSearch sh ctx pfx num with
    | .ok ((res, err), ctx1) =>
      if res ≠ [] then
        .ok (err, writeLine (pfx ++ padRight 13 (Itoa num) ++ " | ".toList ++ res) ctx1)
      else
        .ok (err, writeLine (pfx ++ Itoa num ++ " not found.".toList) ctx1)
    | .fatal => .fatal
    | .crash => .crash
    | .timeout => .timeout

/-- The enumeration loop of `findRange` (source lines 105-110), run for at
most `fuel` iterations from the counter `i`. -/
def findRangeLoop (sh : Shell) (pfx : Str) (endNum : Int) :
    Nat → Int → Option GoError → Context → Run (Option GoError × Context)
  | 0, i, err, ctx => if i ≤ endNum then .timeout else .ok (err, ctx)
  | fuel + 1, i, err, ctx =>
    if i ≤ endNum then
      match findSingleValue sh ctx pfx (Itoa i) with
      | .ok (err1, ctx1) => findRangeLoop sh pfx endNum fuel (incInt i) err1 ctx1
      | .fatal => .fatal
      | .crash => .crash
      | .timeout => .timeout
    else .ok (err, ctx)

/-- The function `findRange`, its enumeration loop limited to `fuel`
iterations. -/
def findRange (fuel : Nat) (sh : Shell) (ctx : Context) (pfx toFind : Str) :
    Run (Option GoError × Context) :=
  let parts := Split toFind "-".toList
  match parts[0]? with
  | none => .crash
  | some part0 =>
    match rangePiece sh ctx pfx part0 with
    | .ok ((_, _, some err), ctx1) =>
      .ok (some (handle "Error in finding results for range start.".toList err), ctx1)
    | .ok ((startNum, startRes, none), ctx1) =>
      match parts[1]? with
      | none => .crash
      | some part1 =>
        match rangePiece sh ctx1 pfx part1 with
        | .ok ((_, _, some err), ctx2) =>
          .ok (some (handle "Error in finding results for range end.".toList err), ctx2)
        | .ok ((endNum, endRes, none), ctx2) =>
          if Contains startRes "-".toList ∧ startRes = endRes then
            .ok (none, writeLine (pfx ++ padRight 13 toFind ++ " | ".toList ++ startRes) ctx2)
          else findRangeLoop sh pfx endNum fuel startNum none ctx2
        | .fatal => .fatal
        | .crash => .crash
        | .timeout => .timeout
    | .fatal => .fatal
    | .crash => .crash
    | .timeout => .timeout


/-- The ordering key the binary search reads off a token (source lines
197-214): the second piece of a token containing `-`, else the token itself. -/
def tokenKey (tok : Str) : Option Int :=
  if Contains tok "-".toList then
    match (Split tok "-".toList)[1]? with
    | none => none
    | some piece =>
      match Atoi piece with
      | .error _ => none
      | .ok endNum => some endNum
  else
    match Atoi tok with
    | .error _ => none
    | .ok curVal => some curVal


/-- The index the build loop of `prefixToResults` leaves after the records
`(token, file snippet)`: each token appended (source line 160) and bound to its
snippet in the map (source line 164). -/
def mkIndex (records : List (Str × Str)) : prefixResult :=
  records.foldl
    (fun res r => ⟨res.accessionNums ++ [r.1], mapSet res.valueToFile r.1 r.2⟩) ⟨[], []⟩

/-- The span a token covers in the catalog's data model: a point covers its
value, a range `start-end` covers `start` through `end`. -/
def tokenSpan (tok : Str) : Option (Int × Int) :=
  if Contains tok "-".toList then
    match Split tok "-".toList with
    | [piece0, piece1] =>
      match Atoi piece0, Atoi piece1 with
      | .ok startNum, .ok endNum => some (startNum, endNum)
      | _, _ => none
    | _ => none
  else
    match Atoi tok with
    | .error _ => none
    | .ok curVal => some (curVal, curVal)

/-- Whether the target lies within the span of the token. -/
def inSpan (target : Int) (tok : Str) : Bool :=
  match tokenSpan tok with
  | some (startNum, endNum) => decide (startNum ≤ target ∧ target ≤ endNum)
  | none => false

/-! ## Fixtures -/

/-- A shell whose every command prints nothing and succeeds. -/
def idleShell : Shell := fun _ _ => ([], [], none)

/-- The records of the three-token scenario, file names with their extension. -/
def scenarioRecords : List (Str × Str) :=
  [("100-200".toList, "fileA.seq".toList), ("250".toList, "fileB.seq".toList),
   ("300-400".toList, "fileC.seq".toList)]

/-- A context whose cache holds the scenario index for the prefix `AB`. -/
def scenarioCtx : Context :=
  ⟨"/catalog".toList, [("AB".toList, mkIndex scenarioRecords)], [], []⟩

/-- Two point tokens, the second with a file snippet shorter than the
4-character extension. -/
def shortFileRecords : List (Str × Str) :=
  [("100".toList, "fileA.seq".toList), ("250".toList, "ab".toList)]

/-- A context whose cache holds `shortFileRecords` for the prefix `AB`. -/
def shortFileCtx : Context :=
  ⟨"/catalog".toList, [("AB".toList, mkIndex shortFileRecords)], [], []⟩

/-- The spans of the scenario tokens. -/
def scenarioSpans : List (Int × Int) := [(100, 200), (250, 250), (300, 400)]

/-- The output of the search utility for the prefix `AB` under `/catalog`: one
range in `gbbct1.seq`, one point in `gbbct2.seq`, one range in `gbbct3.seq`. -/
def catalogStdout : Str :=
  "/catalog/gbbct1.seq:AB: 100-200".toList ++ [Char.ofNat 10] ++
  "/catalog/gbbct2.seq:AB: 250".toList ++ [Char.ofNat 10] ++
  "/catalog/gbbct3.seq:AB: 300-400".toList ++ [Char.ofNat 10]

/-- A shell whose every command prints `catalogStdout` and succeeds. -/
def catalogShell : Shell := fun _ _ => (catalogStdout, [], none)

/-- A context under `/catalog` with an empty cache and nothing written. -/
def emptyCtx : Context := ⟨"/catalog".toList, [], [], []⟩

/-- The index `prefixToResults` builds from `catalogStdout`. -/
def catalogIndex : prefixResult :=
  ⟨["100-200".toList, "250".toList, "300-400".toList],
   [("300-400".toList, "gbbct3.seq".toList), ("250".toList, "gbbct2.seq".toList),
    ("100-200".toList, "gbbct1.seq".toList)]⟩

/-- The context `emptyCtx` after the index of `AB` has been built. -/
def builtCtx : Context :=
  ⟨"/catalog".toList, [("AB".toList, catalogIndex)], [],
   [searchCommand "AB".toList "/catalog".toList]⟩

/-! ## The records of a search output -/

/-- The records of a search output: its lines that contain `: `, in order. -/
def outputRecords (stdout : Str) : List Str :=
  (Split stdout [Char.ofNat 10]).filter (fun line => Contains line ": ".toList)

/-- The left-hand side of a record: the piece before its first `: `
(`pieces[0]` in the source). -/
def recordLhs (line : Str) : Str := (Split line ": ".toList).getD 0 []

/-- The right-hand side of a record: the piece after its first `: `
(`pieces[1]` in the source). -/
def recordRhs (line : Str) : Str := (Split line ": ".toList).getD 1 []

/-- The two cuts of source lines 162-163: the first `len(searchDest) + 1` and
the last `len(prefix) + 1` characters of the left-hand side removed. -/
def cutSnippet (searchDest pfx piece0 : Str) : Str :=
  (piece0.drop (searchDest.length + 1)).take
    ((piece0.drop (searchDest.length + 1)).length - pfx.length - 1)

/-- Removal of a leading `pre`, when present (Go `strings.TrimPrefix`). -/
def trimPrefix (s pre : Str) : Str := if pre.isPrefixOf s then s.drop pre.length else s

/-- Removal of a trailing `suf`, when present (Go `strings.TrimSuffix`). -/
def trimSuffix (s suf : Str) : Str :=
  if suf.isSuffixOf s then s.take (s.length - suf.length) else s

/-- The file name in the words of the specification: the left-hand side with
the catalog root stripped from its front and the suffix `/<prefix>.<ext>`
stripped from its end. -/
def specSourceFile (root pfx ext lhs : Str) : Str :=
  trimSuffix (trimPrefix lhs root) ("/".toList ++ pfx ++ ".".toList ++ ext)

/-- The output of the search utility for a catalog file named as the
specification describes, `<root>/<dir>/<prefix>.<ext>`. -/
def specShapedStdout : Str := "/catalog/sub/AB.seq: 7".toList ++ [Char.ofNat 10]

/-- A shell whose every command prints `specShapedStdout` and succeeds. -/
def specShapedShell : Shell := fun _ _ => (specShapedStdout, [], none)

/-- A search output whose second record carries a token that is no number. -/
def badTokenStdout : Str :=
  "/catalog/gbbct1.seq:AB: 100".toList ++ [Char.ofNat 10] ++
  "/catalog/gbbct1.seq:AB: 12a".toList ++ [Char.ofNat 10]

/-- A shell whose every command prints `badTokenStdout` and succeeds. -/
def badTokenShell : Shell := fun _ _ => (badTokenStdout, [], none)

/-- A search output from a catalog file `f`, whose name is shorter than the
4-character extension. -/
def shortNameStdout : Str :=
  "/catalog/f:AB: 100".toList ++ [Char.ofNat 10] ++
  "/catalog/f:AB: 250".toList ++ [Char.ofNat 10]

/-- A shell whose every command prints `shortNameStdout` and succeeds. -/
def shortNameShell : Shell := fun _ _ => (shortNameStdout, [], none)

/-- The line `findSingleValue` writes for `num` once the index `res` is at hand
(source lines 76-82). -/
def lookupLine (pfx : Str) (res : prefixResult) (num : Int) : Str :=
  match searchIndex res num with
  | .ok out =>
    if out ≠ [] then pfx ++ padRight 13 (Itoa num) ++ " | ".toList ++ out
    else pfx ++ Itoa num ++ " not found.".toList
  | _ => []

/-- A search output from a catalog file whose name contains a hyphen, with two
point tokens. -/
def hyphenStdout : Str :=
  "/catalog/gb-new1.seq:AB: 100".toList ++ [Char.ofNat 10] ++
  "/catalog/gb-new1.seq:AB: 250".toList ++ [Char.ofNat 10]

/-- A shell whose every command prints `hyphenStdout` and succeeds. -/
def hyphenShell : Shell := fun _ _ => (hyphenStdout, [], none)

/-- The index `prefixToResults` builds from `hyphenStdout`. -/
def hyphenIndex : prefixResult :=
  ⟨["100".toList, "250".toList],
   [("250".toList, "gb-new1.seq".toList), ("100".toList, "gb-new1.seq".toList)]⟩

/-- The context `emptyCtx` after the index of `hyphenStdout` has been built. -/
def hyphenCtx : Context :=
  ⟨"/catalog".toList, [("AB".toList, hyphenIndex)], [],
   [searchCommand "AB".toList "/catalog".toList]⟩

/-- A search output, in the order of `sort -k2 -n`, whose second record carries
a token that is no number. -/
def malformedStdout : Str :=
  "/catalog/gbbct1.seq:AB: 100".toList ++ [Char.ofNat 10] ++
  "/catalog/gbbct1.seq:AB: 120a".toList ++ [Char.ofNat 10]

/-- A shell whose every command prints `malformedStdout` and succeeds. -/
def malformedShell : Shell := fun _ _ => (malformedStdout, [], none)

/-! ## Theorems -/
theorem splitAux_ne_nil (sep : Str) (s : Str) (skip : Nat) (cur : Str) :
    splitAux sep s skip cur ≠ [] := by
  induction s generalizing skip cur with
  | nil => simp [splitAux]
  | cons c cs ih =>
    cases skip with
    | zero =>
      unfold splitAux
      split
      · simp
      · exact ih _ _
    | succ k =>
      unfold splitAux
      exact ih _ _

theorem splitAux_length_of_contains (sep : Str) (hsep : sep ≠ []) (s : Str) (cur : Str)
    (h : Contains s sep = true) : 2 ≤ (splitAux sep s 0 cur).length := by
  induction s generalizing cur with
  | nil =>
    cases sep with
    | nil => exact absurd rfl hsep
    | cons a as => simp [Contains] at h
  | cons c cs ih =>
    unfold splitAux
    split
    · have h1 := splitAux_ne_nil sep cs (sep.length - 1) []
      have : 1 ≤ (splitAux sep cs (sep.length - 1) []).length := by
        cases hl : splitAux sep cs (sep.length - 1) [] with
        | nil => exact absurd hl h1
        | cons x xs => simp
      simp only [List.length_cons]
      omega
    · rename_i hnp
      unfold Contains at h
      simp only [Bool.or_eq_true] at h
      rcases h with h | h
      · exact absurd h hnp
      · exact ih _ h

theorem split_second_of_contains (s sep : Str) (hsep : sep ≠ [])
    (h : Contains s sep = true) : ∃ piece, (Split s sep)[1]? = some piece := by
  have h2 := splitAux_length_of_contains sep hsep s [] h
  unfold Split
  exact ⟨(splitAux sep s 0 [])[1], List.getElem?_eq_getElem (by omega)⟩

theorem searchLoop_succ (nums : List Str) (t : Int) (fuel i j : Nat) (hij : i < j)
    (tok : Str) (hget : nums[i + (j - i) / 2]? = some tok) :
    searchLoop nums t (fuel + 1) i j =
      match tokenKey tok with
      | none => .fatal
      | some k =>
        if k < t then searchLoop nums t fuel (i + (j - i) / 2 + 1) j
        else searchLoop nums t fuel i (i + (j - i) / 2) := by
  rw [searchLoop]
  simp only [hij, if_true, hget, tokenKey]
  by_cases hc : Contains tok "-".toList = true
  · obtain ⟨piece, hp⟩ := split_second_of_contains tok "-".toList (by decide) hc
    simp only [hc, if_true, hp]
    cases Atoi piece <;> rfl
  · simp only [hc]
    cases Atoi tok <;> rfl


/-- The loop invariant of the binary search: with every key known and
ascending, `fuel ≥ j - i` iterations end at a bound `r` between `i` and `j`
that still separates the keys below the target from the others. -/
theorem searchLoop_inv (nums : List Str) (key : Nat → Int) (t : Int)
    (hkey : ∀ k tok, nums[k]? = some tok → tokenKey tok = some (key k))
    (hmono : ∀ a b, a ≤ b → b < nums.length → key a ≤ key b) :
    ∀ (fuel i j : Nat), i ≤ j → j ≤ nums.length → j - i ≤ fuel →
      (∀ k, k < i → key k < t) → (∀ k, j ≤ k → k < nums.length → t ≤ key k) →
      ∃ r, searchLoop nums t fuel i j = .ok r ∧ i ≤ r ∧ r ≤ j ∧
        (∀ k, k < r → key k < t) ∧ (∀ k, r ≤ k → k < nums.length → t ≤ key k) := by
  intro fuel
  induction fuel with
  | zero =>
    intro i j hij hj hf hlo hhi
    have : i = j := by omega
    subst this
    exact ⟨i, by simp [searchLoop], le_refl _, le_refl _, hlo, hhi⟩
  | succ fuel ih =>
    intro i j hij hj hf hlo hhi
    by_cases hlt : i < j
    · have hh : i + (j - i) / 2 < j := by omega
      have hlen : i + (j - i) / 2 < nums.length := by omega
      have hget : nums[i + (j - i) / 2]? = some nums[i + (j - i) / 2] :=
        List.getElem?_eq_getElem hlen
      rw [searchLoop_succ nums t fuel i j hlt _ hget, hkey _ _ hget]
      simp only
      by_cases hcmp : key (i + (j - i) / 2) < t
      · rw [if_pos hcmp]
        obtain ⟨r, hr, h1, h2, h3, h4⟩ := ih (i + (j - i) / 2 + 1) j (by omega) hj (by omega)
          (by
            intro k hk
            have := hmono k (i + (j - i) / 2) (by omega) hlen
            omega) hhi
        exact ⟨r, hr, by omega, h2, h3, h4⟩
      · rw [if_neg hcmp]
        obtain ⟨r, hr, h1, h2, h3, h4⟩ := ih i (i + (j - i) / 2) (by omega) (by omega) (by omega)
          hlo
          (by
            intro k hk hkl
            have := hmono (i + (j - i) / 2) k hk hkl
            omega)
        exact ⟨r, hr, h1, by omega, h3, h4⟩
    · have : i = j := by omega
      subst this
      exact ⟨i, by simp [searchLoop], le_refl _, le_refl _, hlo, hhi⟩

/-- With `fuel ≥ j - i` the loop neither runs out of fuel nor indexes the token
list out of range, whatever the tokens are: it stops at a `log.Fatal` or
returns a bound between `i` and `j`. -/
theorem searchLoop_total (nums : List Str) (t : Int) :
    ∀ (fuel i j : Nat), i ≤ j → j ≤ nums.length → j - i ≤ fuel →
      searchLoop nums t fuel i j = .fatal ∨
        ∃ r, searchLoop nums t fuel i j = .ok r ∧ i ≤ r ∧ r ≤ j := by
  intro fuel
  induction fuel with
  | zero =>
    intro i j hij hj hf
    have : i = j := by omega
    subst this
    exact Or.inr ⟨i, by simp [searchLoop], le_refl _, le_refl _⟩
  | succ fuel ih =>
    intro i j hij hj hf
    by_cases hlt : i < j
    · have hlen : i + (j - i) / 2 < nums.length := by omega
      have hget : nums[i + (j - i) / 2]? = some nums[i + (j - i) / 2] :=
        List.getElem?_eq_getElem hlen
      rw [searchLoop_succ nums t fuel i j hlt _ hget]
      cases tokenKey nums[i + (j - i) / 2] with
      | none => exact Or.inl rfl
      | some k =>
        simp only
        by_cases hcmp : k < t
        · rw [if_pos hcmp]
          rcases ih (i + (j - i) / 2 + 1) j (by omega) hj (by omega) with h | ⟨r, hr, h1, h2⟩
          · exact Or.inl h
          · exact Or.inr ⟨r, hr, by omega, h2⟩
        · rw [if_neg hcmp]
          rcases ih i (i + (j - i) / 2) (by omega) (by omega) (by omega) with h | ⟨r, hr, h1, h2⟩
          · exact Or.inl h
          · exact Or.inr ⟨r, hr, h1, by omega⟩
    · have : i = j := by omega
      subst this
      exact Or.inr ⟨i, by simp [searchLoop], le_refl _, le_refl _⟩

theorem keys_length (nums : List Str) (keys : List Int)
    (hkeys : nums.map tokenKey = keys.map some) : keys.length = nums.length := by
  have := congrArg List.length hkeys
  simpa using this.symm

theorem keys_get (nums : List Str) (keys : List Int)
    (hkeys : nums.map tokenKey = keys.map some) (k : Nat) (tok : Str)
    (h : nums[k]? = some tok) : tokenKey tok = some (keys.getD k 0) := by
  have h1 : (nums.map tokenKey)[k]? = (keys.map some)[k]? := by rw [hkeys]
  rw [List.getElem?_map, List.getElem?_map, h] at h1
  cases hk : keys[k]? with
  | none => rw [hk] at h1; simp at h1
  | some v =>
    rw [hk] at h1
    simp only [Option.map_some', Option.some.injEq] at h1
    rw [h1, List.getD_eq_getElem?_getD, hk]
    rfl

theorem keys_mono (keys : List Int) (hsorted : keys.Pairwise (· ≤ ·)) (a b : Nat)
    (hab : a ≤ b) (hb : b < keys.length) : keys.getD a 0 ≤ keys.getD b 0 := by
  have ha : a < keys.length := by omega
  rw [List.getD_eq_getElem _ _ ha, List.getD_eq_getElem _ _ hb]
  rcases Nat.eq_or_lt_of_le hab with h | h
  · subst h; exact le_refl _
  · exact (List.pairwise_iff_getElem.mp hsorted) a b ha hb h

/-- C2: on a token list whose ordering keys are ascending, the binary-search
loop of `accessionSearch` ends (within the `len` iterations it is given) at the
lowest index whose key is at least the target: every key before `i` is below
the target, the key at `i` (when `i` is an index) is not, and `i` is the length
of the list when no key reaches the target. -/
theorem searchLoop_lowest_index (nums : List Str) (keys : List Int) (target : Int)
    (hkeys : nums.map tokenKey = keys.map some) (hsorted : keys.Pairwise (· ≤ ·)) :
    ∃ i, searchLoop nums target nums.length 0 nums.length = .ok i ∧ i ≤ nums.length ∧
      (∀ k v, k < i → keys[k]? = some v → v < target) ∧
      (∀ v, keys[i]? = some v → target ≤ v) ∧
      ((∀ v, v ∈ keys → v < target) → i = nums.length) := by
  have hlen := keys_length nums keys hkeys
  obtain ⟨r, hr, _, h2, h3, h4⟩ := searchLoop_inv nums (fun k => keys.getD k 0) target
    (keys_get nums keys hkeys)
    (fun a b hab hb => keys_mono keys hsorted a b hab (by omega))
    nums.length 0 nums.length (Nat.zero_le _) (le_refl _) (by omega)
    (fun k hk => absurd hk (Nat.not_lt_zero k))
    (fun k hk hkl => absurd hkl (by omega))
  refine ⟨r, hr, h2, ?_, ?_, ?_⟩
  · intro k v hk hv
    have := h3 k hk
    simp only [List.getD_eq_getElem?_getD, hv] at this
    exact this
  · intro v hv
    have hrl : r < nums.length := by
      have := (List.getElem?_eq_some_iff.mp hv).1
      omega
    have := h4 r (le_refl _) hrl
    simp only [List.getD_eq_getElem?_getD, hv] at this
    exact this
  · intro hall
    by_contra hne
    have hrl : r < keys.length := by omega
    have h5 := h4 r (le_refl _) (by omega)
    rw [List.getD_eq_getElem _ _ hrl] at h5
    have := hall _ (List.getElem_mem hrl)
    omega

/-- C2 on the three scenario tokens with the target 225: the loop ends at index
1. -/
theorem searchLoop_lowest_index_witness :
    ∃ i, searchLoop ["100-200".toList, "250".toList, "300-400".toList] 225 3 0 3 = .ok i ∧
      i ≤ 3 ∧
      (∀ k v, k < i → [(200 : Int), 250, 400][k]? = some v → v < 225) ∧
      (∀ v, [(200 : Int), 250, 400][i]? = some v → 225 ≤ v) ∧
      ((∀ v, v ∈ [(200 : Int), 250, 400] → v < 225) → i = 3) :=
  searchLoop_lowest_index ["100-200".toList, "250".toList, "300-400".toList] [200, 250, 400] 225
    (by decide) (by decide)

theorem mkIndex_foldl (records : List (Str × Str)) (res : prefixResult) :
    records.foldl
      (fun res r => (⟨res.accessionNums ++ [r.1], mapSet res.valueToFile r.1 r.2⟩ : prefixResult))
      res = ⟨res.accessionNums ++ records.map Prod.fst, records.reverse ++ res.valueToFile⟩ := by
  induction records generalizing res with
  | nil => simp
  | cons r rs ih =>
    rw [List.foldl_cons, ih]
    simp [mapSet]

theorem mkIndex_eq (records : List (Str × Str)) :
    mkIndex records = ⟨records.map Prod.fst, records.reverse⟩ := by
  unfold mkIndex
  rw [mkIndex_foldl]
  simp

theorem lookup_of_mem_nodup (l : List (Str × Str)) (k v : Str)
    (hnd : (l.map Prod.fst).Nodup) (hmem : (k, v) ∈ l) : l.lookup k = some v := by
  induction l with
  | nil => simp at hmem
  | cons p ps ih =>
    obtain ⟨pk, pv⟩ := p
    simp only [List.map_cons, List.nodup_cons, List.mem_map, Prod.exists, exists_and_right,
      exists_eq_right, not_exists] at hnd
    rcases List.mem_cons.mp hmem with h | h
    · injection h with h1 h2
      subst h1 h2
      simp [List.lookup]
    · have hne : k ≠ pk := by
        intro he
        subst he
        exact hnd.1 v h
      have hb : (k == pk) = false := by simpa using hne
      simp only [List.lookup, hb]
      exact ih hnd.2 h

theorem mapGet_mkIndex (records : List (Str × Str)) (hnd : (records.map Prod.fst).Nodup)
    (i : Nat) (tok file : Str) (h : records[i]? = some (tok, file)) :
    mapGet (mkIndex records).valueToFile tok = file := by
  rw [mkIndex_eq]
  unfold mapGet
  have hmem : (tok, file) ∈ records.reverse :=
    by
    obtain ⟨hl, he⟩ := List.getElem?_eq_some_iff.mp h
    exact List.mem_reverse.mpr (he ▸ List.getElem_mem hl)
  have hnd2 : (records.reverse.map Prod.fst).Nodup := by
    rw [List.map_reverse]
    exact List.nodup_reverse.mpr hnd
  rw [lookup_of_mem_nodup _ _ _ hnd2 hmem]
  rfl

theorem prefixToResults_hit (sh : Shell) (ctx : Context) (pfx : Str) (res : prefixResult)
    (h : ctx.prefixCache.lookup pfx = some res) :
    prefixToResults sh ctx pfx = .ok ((res, none), ctx) := by
  unfold prefixToResults
  rw [h]

theorem accessionSearch_hit (sh : Shell) (ctx : Context) (pfx : Str) (res : prefixResult)
    (t : Int) (h : ctx.prefixCache.lookup pfx = some res) :
    accessionSearch sh ctx pfx t =
      match searchIndex res t with
      | .ok out => .ok ((out, none), ctx)
      | .fatal => .fatal
      | .crash => .crash
      | .timeout => .timeout := by
  unfold accessionSearch
  rw [prefixToResults_hit sh ctx pfx res h]

/-- C3 (amended): on an index with pairwise distinct tokens, once the binary
search has ended at `i`, `accessionSearch` returns the empty result when `i` is
0 or the length of the token list; otherwise, when the file snippet recorded
for token `i` has at least 4 characters, it returns that token, padded to 13
characters, followed by the snippet without its last 4 characters. -/
theorem accessionSearch_result_policy (sh : Shell) (ctx : Context) (pfx : Str)
    (records : List (Str × Str)) (target : Int) (i : Nat)
    (hnd : (records.map Prod.fst).Nodup)
    (hcache : ctx.prefixCache.lookup pfx = some (mkIndex records))
    (hloop : searchLoop (records.map Prod.fst) target records.length 0 records.length = .ok i) :
    ((i = 0 ∨ i = records.length) →
      accessionSearch sh ctx pfx target = .ok (([], none), ctx)) ∧
    (∀ tok file, i ≠ 0 → records[i]? = some (tok, file) → 4 ≤ file.length →
      accessionSearch sh ctx pfx target =
        .ok ((padRight 13 tok ++ " | ".toList ++ file.take (file.length - 4), none), ctx)) := by
  have hnums : (mkIndex records).accessionNums = records.map Prod.fst := by rw [mkIndex_eq]
  have hidx : searchIndex (mkIndex records) target = formatResult (mkIndex records) i := by
    unfold searchIndex
    simp only [hnums, List.length_map, hloop]
  rw [accessionSearch_hit sh ctx pfx _ target hcache, hidx]
  constructor
  · intro h
    have : ¬ (i ≠ 0 ∧ i < (mkIndex records).accessionNums.length) := by
      rw [hnums, List.length_map]
      omega
    unfold formatResult
    rw [if_neg this]
  · intro tok file hi hrec hlen
    have hil : i < records.length := (List.getElem?_eq_some_iff.mp hrec).1
    have hcond : i ≠ 0 ∧ i < (mkIndex records).accessionNums.length := by
      rw [hnums, List.length_map]
      exact ⟨hi, hil⟩
    have htok : (mkIndex records).accessionNums[i]? = some tok := by
      rw [hnums, List.getElem?_map, hrec]
      rfl
    unfold formatResult
    rw [if_pos hcond, htok]
    simp only [mapGet_mkIndex records hnd i tok file hrec]
    rw [if_neg (by omega)]

/-- C3 (amended) on the scenario index with the target 225, where the search
ends at index 1. -/
theorem accessionSearch_result_policy_witness :
    (scenarioRecords.map Prod.fst).Nodup ∧
    scenarioCtx.prefixCache.lookup "AB".toList = some (mkIndex scenarioRecords) ∧
    searchLoop (scenarioRecords.map Prod.fst) 225 scenarioRecords.length 0
      scenarioRecords.length = .ok 1 ∧
    accessionSearch idleShell scenarioCtx "AB".toList 225 =
      .ok (("250           | fileB".toList, none), scenarioCtx) :=
  ⟨by decide, by decide, by decide,
    (accessionSearch_result_policy idleShell scenarioCtx "AB".toList scenarioRecords 225 1
      (by decide) (by decide) (by decide)).2 "250".toList "fileB.seq".toList
      (by decide) (by decide) (by decide)⟩

/-- C3 (counterexample): the search over `shortFileRecords` for 200 ends at
index 1, which is neither 0 nor the length 2, yet `accessionSearch` does not
return a result for token 1: the 4-character trim of the 2-character snippet
`ab` is a slice out of range. -/
theorem accessionSearch_short_file_crash :
    searchLoop (shortFileRecords.map Prod.fst) 200 shortFileRecords.length 0
      shortFileRecords.length = .ok 1 ∧
    (shortFileRecords.map Prod.fst).Nodup ∧
    accessionSearch idleShell shortFileCtx "AB".toList 200 = .crash := by
  decide

/-- C4 (counterexample): on the scenario index the target 150 converges to
index 0, so `accessionSearch` returns the empty result and not the token
`100-200` with `fileA`. -/
theorem scenario_150_not_found :
    accessionSearch idleShell scenarioCtx "AB".toList 150 = .ok (([], none), scenarioCtx) ∧
    accessionSearch idleShell scenarioCtx "AB".toList 150 ≠
      .ok (("100-200       | fileA".toList, none), scenarioCtx) := by
  decide

/-- C4 (amended): on the index with the ordered tokens `100-200` (fileA), `250`
(fileB), `300-400` (fileC), `accessionSearch` returns the empty result for the
target 150, the token `250` with `fileB` for the target 225, and the empty
result for the target 500. -/
theorem scenario_results (sh : Shell) (ctx : Context) (pfx : Str)
    (hcache : ctx.prefixCache.lookup pfx = some (mkIndex scenarioRecords)) :
    accessionSearch sh ctx pfx 150 = .ok (([], none), ctx) ∧
    accessionSearch sh ctx pfx 225 = .ok (("250           | fileB".toList, none), ctx) ∧
    accessionSearch sh ctx pfx 500 = .ok (([], none), ctx) := by
  have h150 : searchIndex (mkIndex scenarioRecords) 150 = .ok [] := by decide
  have h225 : searchIndex (mkIndex scenarioRecords) 225 =
      .ok "250           | fileB".toList := by decide
  have h500 : searchIndex (mkIndex scenarioRecords) 500 = .ok [] := by decide
  refine ⟨?_, ?_, ?_⟩
  · rw [accessionSearch_hit sh ctx pfx _ 150 hcache, h150]
  · rw [accessionSearch_hit sh ctx pfx _ 225 hcache, h225]
  · rw [accessionSearch_hit sh ctx pfx _ 500 hcache, h500]

/-- C4 (amended) in the context whose cache holds the scenario index for the
prefix `AB`. -/
theorem scenario_results_witness :
    scenarioCtx.prefixCache.lookup "AB".toList = some (mkIndex scenarioRecords) ∧
    accessionSearch idleShell scenarioCtx "AB".toList 150 = .ok (([], none), scenarioCtx) ∧
    accessionSearch idleShell scenarioCtx "AB".toList 225 =
      .ok (("250           | fileB".toList, none), scenarioCtx) ∧
    accessionSearch idleShell scenarioCtx "AB".toList 500 = .ok (([], none), scenarioCtx) :=
  ⟨by decide, scenario_results idleShell scenarioCtx "AB".toList (by decide)⟩

theorem tokenKey_of_tokenSpan (tok : Str) (s : Int × Int) (h : tokenSpan tok = some s) :
    tokenKey tok = some s.2 := by
  unfold tokenSpan at h
  unfold tokenKey
  by_cases hc : Contains tok "-".toList = true
  · rw [if_pos hc] at h ⊢
    split at h
    · rename_i piece0 piece1 hsplit
      rw [hsplit]
      simp only [List.getElem?_cons_succ, List.getElem?_cons_zero]
      split at h
      · rename_i startNum endNum h0 h1
        rw [h1]
        simp only [Option.some.injEq] at h
        rw [← h]
      · exact absurd h (by simp)
    · exact absurd h (by simp)
  · rw [if_neg hc] at h ⊢
    split at h
    · exact absurd h (by simp)
    · simp only [Option.some.injEq] at h
      rw [← h]

theorem spans_length (records : List (Str × Str)) (spans : List (Int × Int))
    (hspans : records.map (fun r => tokenSpan r.1) = spans.map some) :
    spans.length = records.length := by
  have := congrArg List.length hspans
  simpa using this.symm

theorem spans_get (records : List (Str × Str)) (spans : List (Int × Int))
    (hspans : records.map (fun r => tokenSpan r.1) = spans.map some) (k : Nat)
    (r : Str × Str) (s : Int × Int) (hr : records[k]? = some r) (hs : spans[k]? = some s) :
    tokenSpan r.1 = some s := by
  have h1 : (records.map (fun r => tokenSpan r.1))[k]? = (spans.map some)[k]? := by rw [hspans]
  rw [List.getElem?_map, List.getElem?_map, hr, hs] at h1
  simpa using h1

theorem keys_of_spans (records : List (Str × Str)) (spans : List (Int × Int))
    (hspans : records.map (fun r => tokenSpan r.1) = spans.map some) :
    (records.map Prod.fst).map tokenKey = (spans.map Prod.snd).map some := by
  apply List.ext_getElem?
  intro k
  simp only [List.getElem?_map]
  have hlen := spans_length records spans hspans
  cases hr : records[k]? with
  | none =>
    have : spans[k]? = none := by
      rw [List.getElem?_eq_none_iff] at hr ⊢
      omega
    simp [this]
  | some r =>
    have hk : k < spans.length := by
      have := (List.getElem?_eq_some_iff.mp hr).1
      omega
    have hs : spans[k]? = some spans[k] := List.getElem?_eq_getElem hk
    rw [hs]
    simp only [Option.map_some']
    rw [tokenKey_of_tokenSpan _ _ (spans_get records spans hspans k r _ hr hs)]

theorem ends_sorted (spans : List (Int × Int)) (hvalid : ∀ s, s ∈ spans → s.1 ≤ s.2)
    (hdisj : spans.Pairwise (fun a b => a.2 < b.1)) :
    (spans.map Prod.snd).Pairwise (· ≤ ·) := by
  rw [List.pairwise_map]
  refine hdisj.imp_of_mem ?_
  intro a b _ hb hab
  have := hvalid b hb
  omega

theorem nodup_of_spans (records : List (Str × Str)) (spans : List (Int × Int))
    (hspans : records.map (fun r => tokenSpan r.1) = spans.map some)
    (hvalid : ∀ s, s ∈ spans → s.1 ≤ s.2)
    (hdisj : spans.Pairwise (fun a b => a.2 < b.1)) : (records.map Prod.fst).Nodup := by
  have hlen := spans_length records spans hspans
  rw [List.Nodup, List.pairwise_iff_getElem]
  intro a b ha hb hab
  simp only [List.length_map] at ha hb
  simp only [List.getElem_map]
  intro heq
  have hsa := spans_get records spans hspans a records[a] spans[a]
    (List.getElem?_eq_getElem ha) (List.getElem?_eq_getElem (by omega))
  have hsb := spans_get records spans hspans b records[b] spans[b]
    (List.getElem?_eq_getElem hb) (List.getElem?_eq_getElem (by omega))
  rw [heq, hsb] at hsa
  simp only [Option.some.injEq] at hsa
  have h1 := (List.pairwise_iff_getElem.mp hdisj) a b (by omega) (by omega) hab
  have h2 := hvalid spans[a] (List.getElem_mem _)
  rw [hsa] at h1
  omega

theorem searchLoop_sorted (nums : List Str) (keys : List Int) (t : Int)
    (hkeys : nums.map tokenKey = keys.map some) (hsorted : keys.Pairwise (· ≤ ·)) :
    ∃ i, searchLoop nums t nums.length 0 nums.length = .ok i ∧ i ≤ nums.length ∧
      (∀ k, k < i → keys.getD k 0 < t) ∧
      (∀ k, i ≤ k → k < nums.length → t ≤ keys.getD k 0) := by
  have hlen := keys_length nums keys hkeys
  obtain ⟨r, hr, _, h2, h3, h4⟩ := searchLoop_inv nums (fun k => keys.getD k 0) t
    (keys_get nums keys hkeys)
    (fun a b hab hb => keys_mono keys hsorted a b hab (by omega))
    nums.length 0 nums.length (Nat.zero_le _) (le_refl _) (by omega)
    (fun k hk => absurd hk (Nat.not_lt_zero k))
    (fun k hk hkl => absurd hkl (by omega))
  exact ⟨r, hr, h2, h3, h4⟩

theorem formatResult_edge (res : prefixResult) (i : Nat)
    (h : i = 0 ∨ res.accessionNums.length ≤ i) : formatResult res i = .ok [] := by
  unfold formatResult
  rw [if_neg (by omega)]

theorem formatResult_found (records : List (Str × Str)) (hnd : (records.map Prod.fst).Nodup)
    (i : Nat) (tok file : Str) (hi : i ≠ 0) (hrec : records[i]? = some (tok, file))
    (hlen : 4 ≤ file.length) :
    formatResult (mkIndex records) i =
      .ok (padRight 13 tok ++ " | ".toList ++ file.take (file.length - 4)) := by
  have hnums : (mkIndex records).accessionNums = records.map Prod.fst := by rw [mkIndex_eq]
  have hil : i < records.length := (List.getElem?_eq_some_iff.mp hrec).1
  have hcond : i ≠ 0 ∧ i < (mkIndex records).accessionNums.length := by
    rw [hnums, List.length_map]
    exact ⟨hi, hil⟩
  have htok : (mkIndex records).accessionNums[i]? = some tok := by
    rw [hnums, List.getElem?_map, hrec]
    rfl
  unfold formatResult
  rw [if_pos hcond, htok]
  simp only [mapGet_mkIndex records hnd i tok file hrec]
  rw [if_neg (by omega)]

theorem padRight_ne_nil (tok rest : Str) : padRight 13 tok ++ " | ".toList ++ rest ≠ [] := by
  intro h
  have := congrArg List.length h
  simp [padRight] at this

/-- C1 (amended): on an index whose tokens are disjoint and sorted ascending,
each with a file snippet of at least 4 characters, `accessionSearch` returns
for every target; the result is non-empty exactly when the target is above the
key of some token `k - 1` and at most the key of its successor `k` (so above
the first key and at most the last one); and a target within the span of a
token other than the first is answered with that token and its file. -/
theorem accessionSearch_found_iff (sh : Shell) (ctx : Context) (pfx : Str)
    (records : List (Str × Str)) (spans : List (Int × Int)) (target : Int)
    (hspans : records.map (fun r => tokenSpan r.1) = spans.map some)
    (hvalid : ∀ s, s ∈ spans → s.1 ≤ s.2)
    (hdisj : spans.Pairwise (fun a b => a.2 < b.1))
    (hfiles : ∀ r, r ∈ records → 4 ≤ r.2.length)
    (hcache : ctx.prefixCache.lookup pfx = some (mkIndex records)) :
    ∃ res, accessionSearch sh ctx pfx target = .ok ((res, none), ctx) ∧
      (res ≠ [] ↔ ∃ k lo hi, spans[k]? = some lo ∧ spans[k + 1]? = some hi ∧
        lo.2 < target ∧ target ≤ hi.2) ∧
      (∀ k tok file s, k ≠ 0 → records[k]? = some (tok, file) → spans[k]? = some s →
        s.1 ≤ target → target ≤ s.2 →
        res = padRight 13 tok ++ " | ".toList ++ file.take (file.length - 4)) := by
  have hlen := spans_length records spans hspans
  have hnd := nodup_of_spans records spans hspans hvalid hdisj
  have hnums : (mkIndex records).accessionNums = records.map Prod.fst := by rw [mkIndex_eq]
  obtain ⟨i, hloop, hile, hlo, hhi⟩ := searchLoop_sorted (records.map Prod.fst)
    (spans.map Prod.snd) target (keys_of_spans records spans hspans)
    (ends_sorted spans hvalid hdisj)
  simp only [List.length_map] at hloop hile hhi
  have hidx : searchIndex (mkIndex records) target = formatResult (mkIndex records) i := by
    unfold searchIndex
    simp only [hnums, List.length_map, hloop]
  have hkey : ∀ k s, spans[k]? = some s → (spans.map Prod.snd).getD k 0 = s.2 := by
    intro k s hs
    rw [List.getD_eq_getElem?_getD, List.getElem?_map, hs]
    rfl
  rw [accessionSearch_hit sh ctx pfx _ target hcache, hidx]
  by_cases hedge : i = 0 ∨ i = records.length
  · rw [formatResult_edge _ i (by rw [hnums, List.length_map]; omega)]
    refine ⟨[], rfl, ?_, ?_⟩
    · constructor
      · intro h; exact absurd rfl h
      · rintro ⟨k, lo, hi, hk, hk1, h1, h2⟩
        have hk1l : k + 1 < spans.length := (List.getElem?_eq_some_iff.mp hk1).1
        rcases hedge with h0 | hn
        · have := hhi k (by omega) (by omega)
          rw [hkey k lo hk] at this
          omega
        · have := hlo (k + 1) (by omega)
          rw [hkey (k + 1) hi hk1] at this
          omega
    · intro k tok file s hk0 hrec hs h1 h2
      exfalso
      have hkl : k < spans.length := (List.getElem?_eq_some_iff.mp hs).1
      rcases hedge with h0 | hn
      · obtain ⟨p, hp⟩ : ∃ p, spans[k - 1]? = some p :=
          ⟨spans[k - 1], List.getElem?_eq_getElem (by omega)⟩
        have h3 := hhi (k - 1) (by omega) (by omega)
        rw [hkey (k - 1) p hp] at h3
        have hp' : spans[k - 1] = p := by
          have := List.getElem?_eq_getElem (l := spans) (n := k - 1) (by omega)
          rw [this] at hp
          exact Option.some.inj hp
        have hs' : spans[k] = s := by
          have := List.getElem?_eq_getElem (l := spans) (n := k) hkl
          rw [this] at hs
          exact Option.some.inj hs
        have h4 := (List.pairwise_iff_getElem.mp hdisj) (k - 1) k (by omega) hkl (by omega)
        rw [hp', hs'] at h4
        omega
      · have := hlo k (by omega)
        rw [hkey k s hs] at this
        omega
  · have hil : i < records.length := by omega
    have hi0 : i ≠ 0 := by omega
    have hreci : records[i]? = some (records[i].1, records[i].2) :=
      List.getElem?_eq_getElem hil
    have hfile : 4 ≤ records[i].2.length := hfiles _ (List.getElem_mem hil)
    rw [formatResult_found records hnd i _ _ hi0 hreci hfile]
    refine ⟨_, rfl, ?_, ?_⟩
    · constructor
      · intro _
        have h1 : spans[i - 1]? = some spans[i - 1] := List.getElem?_eq_getElem (by omega)
        have h2 : spans[i - 1 + 1]? = some spans[i] := by
          have : i - 1 + 1 = i := by omega
          simp only [this]
          exact List.getElem?_eq_getElem (by omega)
        refine ⟨i - 1, spans[i - 1], spans[i], h1, h2, ?_, ?_⟩
        · have := hlo (i - 1) (by omega)
          rw [hkey (i - 1) _ h1] at this
          exact this
        · have := hhi i (le_refl _) hil
          rw [hkey i spans[i] (List.getElem?_eq_getElem (by omega))] at this
          exact this
      · intro _
        exact padRight_ne_nil _ _
    · intro k tok file s hk0 hrec hs h1 h2
      have hkl : k < spans.length := (List.getElem?_eq_some_iff.mp hs).1
      have hs' : spans[k] = s := by
        have := List.getElem?_eq_getElem (l := spans) (n := k) hkl
        rw [this] at hs
        exact Option.some.inj hs
      have hki : k = i := by
        have hle : ¬ i < k := by
          intro hcon
          have := hhi (k - 1) (by omega) (by omega)
          rw [hkey (k - 1) spans[k - 1] (List.getElem?_eq_getElem (by omega))] at this
          have h4 := (List.pairwise_iff_getElem.mp hdisj) (k - 1) k (by omega) hkl (by omega)
          rw [hs'] at h4
          omega
        have hge : ¬ k < i := by
          intro hcon
          have := hlo k hcon
          rw [hkey k s hs] at this
          omega
        omega
      subst hki
      rw [hreci] at hrec
      injection hrec with hrec
      injection hrec with ht hf
      rw [ht, hf]

/-- C1 (amended) on the scenario index with the target 350, inside the span of
the third token. -/
theorem accessionSearch_found_iff_witness :
    scenarioRecords.map (fun r => tokenSpan r.1) = scenarioSpans.map some ∧
    (∀ s, s ∈ scenarioSpans → s.1 ≤ s.2) ∧
    scenarioSpans.Pairwise (fun a b => a.2 < b.1) ∧
    (∀ r, r ∈ scenarioRecords → 4 ≤ r.2.length) ∧
    scenarioCtx.prefixCache.lookup "AB".toList = some (mkIndex scenarioRecords) ∧
    ∃ res, accessionSearch idleShell scenarioCtx "AB".toList 350 =
        .ok ((res, none), scenarioCtx) ∧
      (res ≠ [] ↔ ∃ k lo hi, scenarioSpans[k]? = some lo ∧ scenarioSpans[k + 1]? = some hi ∧
        lo.2 < 350 ∧ 350 ≤ hi.2) ∧
      (∀ k tok file s, k ≠ 0 → scenarioRecords[k]? = some (tok, file) →
        scenarioSpans[k]? = some s → s.1 ≤ 350 → 350 ≤ s.2 →
        res = padRight 13 tok ++ " | ".toList ++ file.take (file.length - 4)) :=
  ⟨by decide, by decide, by decide, by decide, by decide,
    accessionSearch_found_iff idleShell scenarioCtx "AB".toList scenarioRecords scenarioSpans
      350 (by decide) (by decide) (by decide) (by decide) (by decide)⟩

/-- C1 (counterexample): the scenario index is disjoint and sorted, yet the
target 225, which lies in no token's span, is answered with the token `250`,
and the target 150, which lies in the span of `100-200`, gets the empty
result. -/
theorem found_without_containment :
    scenarioRecords.map (fun r => tokenSpan r.1) = scenarioSpans.map some ∧
    scenarioSpans.Pairwise (fun a b => a.2 < b.1) ∧
    (∀ r, r ∈ scenarioRecords → inSpan 225 r.1 = false) ∧
    accessionSearch idleShell scenarioCtx "AB".toList 225 =
      .ok (("250           | fileB".toList, none), scenarioCtx) ∧
    inSpan 150 "100-200".toList = true ∧
    accessionSearch idleShell scenarioCtx "AB".toList 150 = .ok (([], none), scenarioCtx) := by
  decide

theorem split_length_ne_zero (s sep : Str) : (Split s sep).length ≠ 0 := by
  intro h
  exact splitAux_ne_nil sep s 0 [] (List.length_eq_zero.mp h)

theorem lookup_cons_self (pfx : Str) (res : prefixResult) (cache : List (Str × prefixResult)) :
    ((pfx, res) :: cache).lookup pfx = some res := by
  simp [List.lookup]

/-- A successful build on a cache miss: the returned context has seen exactly
one more command and holds the returned index for the prefix. -/
theorem prefixToResults_miss (sh : Shell) (ctx ctx1 : Context) (pfx : Str)
    (res : prefixResult) (hmiss : ctx.prefixCache.lookup pfx = none)
    (hcall : prefixToResults sh ctx pfx = .ok ((res, none), ctx1)) :
    ctx1.commands = ctx.commands ++ [searchCommand pfx ctx.searchDest] ∧
    ctx1.prefixCache = (pfx, res) :: ctx.prefixCache ∧
    ctx1.searchDest = ctx.searchDest ∧ ctx1.outFile = ctx.outFile := by
  unfold prefixToResults at hcall
  rw [hmiss] at hcall
  simp only [commandVerboseOnErr, commandWithOutput] at hcall
  rcases hsh : sh ctx.commands.length (searchCommand pfx ctx.searchDest) with
    ⟨stdout, stderr, err⟩
  rw [hsh] at hcall
  cases err with
  | some e => simp at hcall
  | none =>
    simp only [if_neg (split_length_ne_zero stdout [Char.ofNat 10])] at hcall
    cases hix : indexLines ctx.searchDest pfx (Split stdout [Char.ofNat 10]) [] [] with
    | ok val =>
      obtain ⟨nums, files⟩ := val
      rw [hix] at hcall
      simp only [Run.ok.injEq, Prod.mk.injEq, and_true] at hcall
      obtain ⟨hres, hctx⟩ := hcall
      subst hres hctx
      exact ⟨rfl, rfl, rfl, rfl⟩
    | fatal => rw [hix] at hcall; simp at hcall
    | crash => rw [hix] at hcall; simp at hcall
    | timeout => rw [hix] at hcall; simp at hcall

/-- C8: `prefixToResults` is idempotent within a run. When the cache holds an
entry for the prefix, the call returns exactly that entry and leaves the
context as it was: no command is run and the cache is unchanged. After a
successful call on a cache miss exactly one command has been run, and a second
call for the same prefix returns the same index without running another. -/
theorem prefixToResults_idempotent (sh : Shell) (ctx : Context) (pfx : Str) :
    (∀ res, ctx.prefixCache.lookup pfx = some res →
      prefixToResults sh ctx pfx = .ok ((res, none), ctx)) ∧
    (∀ res ctx1, ctx.prefixCache.lookup pfx = none →
      prefixToResults sh ctx pfx = .ok ((res, none), ctx1) →
      ctx1.commands = ctx.commands ++ [searchCommand pfx ctx.searchDest] ∧
      prefixToResults sh ctx1 pfx = .ok ((res, none), ctx1)) := by
  constructor
  · intro res h
    exact prefixToResults_hit sh ctx pfx res h
  · intro res ctx1 hmiss hcall
    obtain ⟨hcmd, hcache, _, _⟩ := prefixToResults_miss sh ctx ctx1 pfx res hmiss hcall
    refine ⟨hcmd, prefixToResults_hit sh ctx1 pfx res ?_⟩
    rw [hcache]
    exact lookup_cons_self pfx res ctx.prefixCache

/-- C8 on an empty cache with the catalog shell: one command builds the index,
the second call returns it from the cache. -/
theorem prefixToResults_idempotent_witness :
    (emptyCtx.prefixCache.lookup "AB".toList = none ∧
      prefixToResults catalogShell emptyCtx "AB".toList = .ok ((catalogIndex, none), builtCtx)) ∧
    (builtCtx.commands = emptyCtx.commands ++ [searchCommand "AB".toList emptyCtx.searchDest] ∧
      prefixToResults catalogShell builtCtx "AB".toList = .ok ((catalogIndex, none), builtCtx)) :=
  ⟨⟨by decide, by decide⟩,
    (prefixToResults_idempotent catalogShell emptyCtx "AB".toList).2 catalogIndex builtCtx
      (by decide) (by decide)⟩

/-- Building or fetching an index writes nothing to the output file. -/
theorem prefixToResults_outFile (sh : Shell) (ctx ctx1 : Context) (pfx : Str)
    (r : prefixResult × Option GoError)
    (hcall : prefixToResults sh ctx pfx = .ok (r, ctx1)) : ctx1.outFile = ctx.outFile := by
  unfold prefixToResults at hcall
  cases hl : ctx.prefixCache.lookup pfx with
  | some res =>
    rw [hl] at hcall
    simp only [Run.ok.injEq, Prod.mk.injEq] at hcall
    rw [← hcall.2]
  | none =>
    rw [hl] at hcall
    simp only [commandVerboseOnErr, commandWithOutput] at hcall
    rcases hsh : sh ctx.commands.length (searchCommand pfx ctx.searchDest) with
      ⟨stdout, stderr, err⟩
    rw [hsh] at hcall
    cases err with
    | some e =>
      simp only [Run.ok.injEq, Prod.mk.injEq] at hcall
      rw [← hcall.2]
    | none =>
      simp only [if_neg (split_length_ne_zero stdout [Char.ofNat 10])] at hcall
      cases hix : indexLines ctx.searchDest pfx (Split stdout [Char.ofNat 10]) [] [] with
      | ok val =>
        rw [hix] at hcall
        simp only [Run.ok.injEq, Prod.mk.injEq] at hcall
        rw [← hcall.2]
      | fatal => rw [hix] at hcall; simp at hcall
      | crash => rw [hix] at hcall; simp at hcall
      | timeout => rw [hix] at hcall; simp at hcall

/-- A search writes nothing to the output file. -/
theorem accessionSearch_outFile (sh : Shell) (ctx ctx1 : Context) (pfx : Str) (t : Int)
    (r : Str × Option GoError)
    (hcall : accessionSearch sh ctx pfx t = .ok (r, ctx1)) : ctx1.outFile = ctx.outFile := by
  unfold accessionSearch at hcall
  cases hp : prefixToResults sh ctx pfx with
  | ok val =>
    obtain ⟨⟨res, err⟩, ctx2⟩ := val
    have hframe := prefixToResults_outFile sh ctx ctx2 pfx (res, err) hp
    rw [hp] at hcall
    cases err with
    | some e =>
      simp only [Run.ok.injEq, Prod.mk.injEq] at hcall
      rw [← hcall.2, hframe]
    | none =>
      simp only at hcall
      cases hs : searchIndex res t with
      | ok out =>
        rw [hs] at hcall
        simp only [Run.ok.injEq, Prod.mk.injEq] at hcall
        rw [← hcall.2, hframe]
      | fatal => rw [hs] at hcall; simp at hcall
      | crash => rw [hs] at hcall; simp at hcall
      | timeout => rw [hs] at hcall; simp at hcall
  | fatal => rw [hp] at hcall; simp at hcall
  | crash => rw [hp] at hcall; simp at hcall
  | timeout => rw [hp] at hcall; simp at hcall


theorem digitValue_digitChar (d : Nat) (h : d < 10) : digitValue (digitChar d) = some d := by
  interval_cases d <;> decide

theorem parseUint_append (xs ys : Str) (acc : Nat) :
    parseUint (xs ++ ys) acc =
      match parseUint xs acc with
      | .ok n => parseUint ys n
      | .error mk => .error mk := by
  induction xs generalizing acc with
  | nil => rfl
  | cons c cs ih =>
    simp only [List.cons_append, parseUint]
    cases digitValue c with
    | none => rfl
    | some d =>
      simp only
      split
      · rfl
      · exact ih _

theorem natDigitsAux_append (fuel n : Nat) (acc : Str) :
    natDigitsAux fuel n acc = natDigitsAux fuel n [] ++ acc := by
  induction fuel generalizing n acc with
  | zero => rfl
  | succ fuel ih =>
    unfold natDigitsAux
    split
    · rfl
    · rw [ih (n / 10) (digitChar (n % 10) :: acc), ih (n / 10) [digitChar (n % 10)]]
      simp

theorem parseUint_natDigitsAux (fuel n : Nat) (h : n < fuel) (hmax : n ≤ maxUint) :
    parseUint (natDigitsAux fuel n []) 0 = .ok n := by
  induction fuel generalizing n with
  | zero => omega
  | succ fuel ih =>
    unfold natDigitsAux
    split
    · rename_i h0
      have hn : n % 10 = n := by omega
      have hd := digitValue_digitChar n (by omega)
      have hle : ¬ maxUint < n := by omega
      simp [parseUint, hn, hd, hle]
    · rename_i h0
      rw [natDigitsAux_append, parseUint_append, ih (n / 10) (by omega) (by omega)]
      have hval : n / 10 * 10 + n % 10 = n := by omega
      have hle : ¬ maxUint < n / 10 * 10 + n % 10 := by omega
      have hle2 : ¬ maxUint < n := by omega
      simp only [parseUint, digitValue_digitChar (n % 10) (Nat.mod_lt _ (by omega)), hval,
        if_neg hle2]

theorem parseUint_natDigits (n : Nat) (hmax : n ≤ maxUint) :
    parseUint (natDigits n) 0 = .ok n :=
  parseUint_natDigitsAux (n + 1) n (by omega) hmax

theorem natDigitsAux_digits (fuel n : Nat) (c : Char)
    (hc : c ∈ natDigitsAux (fuel + 1) n []) : digitValue c ≠ none := by
  induction fuel generalizing n with
  | zero =>
    unfold natDigitsAux at hc
    have hd := digitValue_digitChar (n % 10) (Nat.mod_lt _ (by omega))
    split at hc
    · simp only [List.mem_singleton] at hc
      rw [hc, hd]
      simp
    · simp only [natDigitsAux, List.mem_singleton] at hc
      rw [hc, hd]
      simp
  | succ fuel ih =>
    unfold natDigitsAux at hc
    have hd := digitValue_digitChar (n % 10) (Nat.mod_lt _ (by omega))
    split at hc
    · simp only [List.mem_singleton] at hc
      rw [hc, hd]
      simp
    · rw [natDigitsAux_append] at hc
      rcases List.mem_append.mp hc with h | h
      · exact ih (n / 10) h
      · simp only [List.mem_singleton] at h
        rw [h, hd]
        simp

theorem natDigits_cons (n : Nat) :
    ∃ c cs, natDigits n = c :: cs ∧ c ≠ '-' ∧ c ≠ '+' := by
  cases hd : natDigits n with
  | nil =>
    exfalso
    unfold natDigits natDigitsAux at hd
    split at hd
    · exact absurd hd (by simp)
    · rw [natDigitsAux_append] at hd
      simp at hd
  | cons c cs =>
    have hmem : c ∈ natDigitsAux (n + 1) n [] := by
      have : natDigitsAux (n + 1) n [] = c :: cs := hd
      rw [this]
      exact List.mem_cons_self _ _
    have hdig := natDigitsAux_digits n n c hmem
    refine ⟨c, cs, rfl, ?_, ?_⟩
    · intro hc
      subst hc
      exact hdig (by decide)
    · intro hc
      subst hc
      exact hdig (by decide)

/-- `Atoi` reads back what `Itoa` prints, for every value of Go's `int`. -/
theorem Atoi_Itoa (v : Int) (hlo : minInt ≤ v) (hhi : v ≤ maxInt) : Atoi (Itoa v) = .ok v := by
  unfold Itoa
  obtain ⟨c, cs, hd, hc1, hc2⟩ := natDigits_cons v.natAbs
  have hp := parseUint_natDigits v.natAbs (by
    unfold maxUint
    unfold minInt at hlo
    unfold maxInt at hhi
    omega)
  rw [hd] at hp
  by_cases hneg : v < 0
  · rw [if_pos hneg, hd]
    have h1 : |v| ≤ -minInt := by
      rw [abs_of_neg hneg]
      unfold minInt at hlo ⊢
      omega
    have h2 : -|v| = v := by
      rw [abs_of_neg hneg]
      omega
    simp [Atoi, hp, h1, h2]
  · rw [if_neg hneg, hd]
    have h1 : ((v.natAbs : Nat) : Int) ≤ maxInt := by omega
    have h2 : ((v.natAbs : Nat) : Int) = v := by omega
    simp [Atoi, hc1, hc2, hp, h2, hhi]

/-- `Atoi` only returns values of Go's `int`. -/
theorem Atoi_range (s : Str) (v : Int) (h : Atoi s = .ok v) : minInt ≤ v ∧ v ≤ maxInt := by
  cases s with
  | nil => simp [Atoi] at h
  | cons c cs =>
    unfold Atoi at h
    simp only at h
    generalize (if c = '-' ∨ c = '+' then cs else c :: cs) = digits at h
    by_cases he : digits = []
    · rw [if_pos he] at h
      cases h
    · rw [if_neg he] at h
      cases hp : parseUint digits 0 with
      | error mk =>
        rw [hp] at h
        cases h
      | ok n =>
        rw [hp] at h
        simp only at h
        by_cases hm : c = '-'
        · rw [if_pos hm] at h
          by_cases hr : (n : Int) ≤ -minInt
          · rw [if_pos hr] at h
            injection h with h
            subst h
            unfold minInt maxInt at *
            constructor <;> omega
          · rw [if_neg hr] at h
            cases h
        · rw [if_neg hm] at h
          by_cases hr : (n : Int) ≤ maxInt
          · rw [if_pos hr] at h
            injection h with h
            subst h
            unfold minInt maxInt at *
            constructor <;> omega
          · rw [if_neg hr] at h
            cases h

/-- C9 (amended): `findSingleValue` on a string that `Atoi` rejects returns the
wrapped parse error and writes nothing. On a string that parses to `num`,
whenever `accessionSearch` returns, it writes exactly one line: the prefix, the
decimal text of `num` (which reads back as `num`) padded to 13 characters,
` | ` and the result when the result is non-empty (Found), and the prefix, the
decimal text of `num` and ` not found.` when it is empty (NotFound). When
`accessionSearch` ends the process, so does `findSingleValue`, without a
line. -/
theorem findSingleValue_line (sh : Shell) (ctx : Context) (pfx numStr : Str) :
    (∀ e, Atoi numStr = .error e →
      findSingleValue sh ctx pfx numStr =
        .ok (some (handle "Error in converting to int.".toList e), ctx)) ∧
    (∀ num res err ctx1, Atoi numStr = .ok num →
      accessionSearch sh ctx pfx num = .ok ((res, err), ctx1) →
      Atoi (Itoa num) = .ok num ∧
      ∃ line, findSingleValue sh ctx pfx numStr =
          .ok (err, { ctx1 with outFile := ctx.outFile ++ [line] }) ∧
        (res ≠ [] → line = pfx ++ padRight 13 (Itoa num) ++ " | ".toList ++ res) ∧
        (res = [] → line = pfx ++ Itoa num ++ " not found.".toList)) ∧
    (∀ num, Atoi numStr = .ok num →
      (accessionSearch sh ctx pfx num = .fatal → findSingleValue sh ctx pfx numStr = .fatal) ∧
      (accessionSearch sh ctx pfx num = .crash → findSingleValue sh ctx pfx numStr = .crash)) := by
  refine ⟨?_, ?_, ?_⟩
  · intro e he
    unfold findSingleValue
    rw [he]
  · intro num res err ctx1 hnum hsearch
    have hrange := Atoi_range numStr num hnum
    refine ⟨Atoi_Itoa num hrange.1 hrange.2, ?_⟩
    have hframe := accessionSearch_outFile sh ctx ctx1 pfx num (res, err) hsearch
    unfold findSingleValue
    rw [hnum]
    simp only [hsearch]
    by_cases hres : res = []
    · refine ⟨pfx ++ Itoa num ++ " not found.".toList, ?_, fun h => absurd hres h, fun _ => rfl⟩
      simp [hres, writeLine, hframe]
    · refine ⟨pfx ++ padRight 13 (Itoa num) ++ " | ".toList ++ res, ?_, fun _ => rfl,
        fun h => absurd h hres⟩
      simp [hres, writeLine, hframe]
  · intro num hnum
    constructor
    · intro h
      unfold findSingleValue
      rw [hnum]
      simp only [h]
    · intro h
      unfold findSingleValue
      rw [hnum]
      simp only [h]

/-- C9 (amended) on the scenario index: `abc` is rejected and nothing is
written; `225` writes the Found line `AB225           | 250           | fileB`
and `500` the line `AB500 not found.`. -/
theorem findSingleValue_line_witness :
    (Atoi "abc".toList = .error (.invalidSyntax "abc".toList) ∧
      findSingleValue idleShell scenarioCtx "AB".toList "abc".toList =
        .ok (some (handle "Error in converting to int.".toList
          (.invalidSyntax "abc".toList)), scenarioCtx)) ∧
    (Atoi "225".toList = .ok 225 ∧
      accessionSearch idleShell scenarioCtx "AB".toList 225 =
        .ok (("250           | fileB".toList, none), scenarioCtx) ∧
      Atoi (Itoa 225) = .ok 225 ∧
      ∃ line, findSingleValue idleShell scenarioCtx "AB".toList "225".toList =
          .ok (none, { scenarioCtx with outFile := scenarioCtx.outFile ++ [line] }) ∧
        ("250           | fileB".toList ≠ [] →
          line = "AB".toList ++ padRight 13 (Itoa 225) ++ " | ".toList ++
            "250           | fileB".toList) ∧
        ("250           | fileB".toList = [] →
          line = "AB".toList ++ Itoa 225 ++ " not found.".toList)) ∧
    findSingleValue idleShell scenarioCtx "AB".toList "225".toList =
      .ok (none, { scenarioCtx with
        outFile := ["AB225           | 250           | fileB".toList] }) ∧
    findSingleValue idleShell scenarioCtx "AB".toList "500".toList =
      .ok (none, { scenarioCtx with outFile := ["AB500 not found.".toList] }) :=
  ⟨⟨rfl, (findSingleValue_line idleShell scenarioCtx "AB".toList "abc".toList).1 _ rfl⟩,
    ⟨rfl, by decide,
      (findSingleValue_line idleShell scenarioCtx "AB".toList "225".toList).2.1 225
        "250           | fileB".toList none scenarioCtx rfl (by decide)⟩,
    by decide, by decide⟩

/-- C9 (counterexample): `150` and `200` are well-formed integers, yet
`findSingleValue` writes no line for them: on an index holding the token `120a`
the search ends the process at `log.Fatal`, and on an index built from a
catalog file named `f` it panics on the 4-character trim. -/
theorem findSingleValue_no_line :
    Atoi "150".toList = .ok 150 ∧
    findSingleValue malformedShell emptyCtx "AB".toList "150".toList = .fatal ∧
    Atoi "200".toList = .ok 200 ∧
    findSingleValue shortNameShell emptyCtx "AB".toList "200".toList = .crash :=
  ⟨rfl, by decide, rfl, by decide⟩

theorem split_pieces_of_contains (line : Str) (h : Contains line ": ".toList = true) :
    ∃ rest, Split line ": ".toList = recordLhs line :: recordRhs line :: rest := by
  have h2 := splitAux_length_of_contains ": ".toList (by decide) line [] h
  unfold recordLhs recordRhs Split
  cases hs : splitAux ": ".toList line 0 [] with
  | nil => rw [hs] at h2; simp at h2
  | cons p0 ps =>
    cases ps with
    | nil => rw [hs] at h2; simp at h2
    | cons p1 rest => exact ⟨rest, rfl⟩

/-- The build loop, as a map over the records: every line containing `: `
appends its right-hand side and binds it to the cut left-hand side, provided
every left-hand side is long enough for the two cuts. -/
theorem indexLines_eq (searchDest pfx : Str) (lines : List Str) :
    ∀ (nums : List Str) (files : List (Str × Str)),
    (∀ line, line ∈ lines.filter (fun line => Contains line ": ".toList) →
      searchDest.length + 1 + (pfx.length + 1) ≤ (recordLhs line).length) →
    indexLines searchDest pfx lines nums files =
      .ok (nums ++ (lines.filter (fun line => Contains line ": ".toList)).map recordRhs,
        ((lines.filter (fun line => Contains line ": ".toList)).map
          (fun line => (recordRhs line, cutSnippet searchDest pfx (recordLhs line)))).reverse
          ++ files) := by
  induction lines with
  | nil =>
    intro nums files _
    simp [indexLines]
  | cons line rest ih =>
    intro nums files hlong
    unfold indexLines
    by_cases hc : Contains line ": ".toList = true
    · obtain ⟨tl, hsplit⟩ := split_pieces_of_contains line hc
      have hfilt : (line :: rest).filter (fun line => Contains line ": ".toList) =
          line :: rest.filter (fun line => Contains line ": ".toList) :=
        List.filter_cons_of_pos hc
      rw [hfilt] at hlong ⊢
      have hl := hlong line (List.mem_cons_self _ _)
      rw [if_pos hc, hsplit]
      simp only
      rw [if_neg (by omega), if_neg (by rw [List.length_drop]; omega)]
      rw [ih _ _ (fun l hm => hlong l (List.mem_cons_of_mem _ hm))]
      simp [mapSet, cutSnippet]
    · have hfilt : (line :: rest).filter (fun line => Contains line ": ".toList) =
          rest.filter (fun line => Contains line ": ".toList) :=
        List.filter_cons_of_neg hc
      rw [hfilt] at hlong ⊢
      rw [if_neg hc]
      exact ih _ _ hlong

/-- Reading the map after a run of bindings: the value of the last binding of
the key. -/
theorem lookup_reverse_last (l : List (Str × Str)) (k : Nat) (t f : Str)
    (hk : l[k]? = some (t, f))
    (hlast : ∀ m p, k < m → l[m]? = some p → p.1 ≠ t) :
    l.reverse.lookup t = some f := by
  induction l using List.reverseRecOn generalizing k with
  | nil => simp at hk
  | append_singleton l p ih =>
    rw [List.reverse_append, List.reverse_singleton, List.singleton_append]
    by_cases hkl : k < l.length
    · have hp : p.1 ≠ t := hlast l.length p hkl (by simp)
      have hb : (t == p.1) = false := by
        simp only [beq_eq_false_iff_ne, ne_eq]
        exact fun h => hp h.symm
      obtain ⟨pk, pv⟩ := p
      simp only [List.lookup] at hb ⊢
      rw [hb]
      refine ih k ?_ ?_
      · rw [List.getElem?_append_left hkl] at hk
        exact hk
      · intro m q hm hq
        have hml : m < l.length := (List.getElem?_eq_some_iff.mp hq).1
        exact hlast m q hm (by rw [List.getElem?_append_left hml]; exact hq)
    · have hlen : k < (l ++ [p]).length := (List.getElem?_eq_some_iff.mp hk).1
      simp only [List.length_append, List.length_singleton] at hlen
      have hkeq : k = l.length := by omega
      subst hkeq
      simp only [List.getElem?_concat_length, Option.some.injEq] at hk
      subst hk
      simp [List.lookup]

/-- C7 (amended): on a cache miss with a successful search whose records all
have a left-hand side long enough for the two cuts, `prefixToResults` returns
without error an index that it also stores in the cache: the ordered tokens
are the right-hand sides of the records (the piece after the first `: `) in
the order of the output; the file of a token is the left-hand side of the last
record carrying it, without its first `len(searchDest) + 1` and its last
`len(prefix) + 1` characters; and an output without records gives the empty
index. -/
theorem prefixToResults_builds (sh : Shell) (ctx : Context) (pfx stdout stderr : Str)
    (hmiss : ctx.prefixCache.lookup pfx = none)
    (hsh : sh ctx.commands.length (searchCommand pfx ctx.searchDest) = (stdout, stderr, none))
    (hlong : ∀ line, line ∈ outputRecords stdout →
      ctx.searchDest.length + 1 + (pfx.length + 1) ≤ (recordLhs line).length) :
    ∃ res ctx1, prefixToResults sh ctx pfx = .ok ((res, none), ctx1) ∧
      ctx1.prefixCache = (pfx, res) :: ctx.prefixCache ∧
      res.accessionNums = (outputRecords stdout).map recordRhs ∧
      (∀ (k : Nat) (line : Str), (outputRecords stdout)[k]? = some line →
        (∀ (m : Nat) (later : Str), k < m → (outputRecords stdout)[m]? = some later →
          recordRhs later ≠ recordRhs line) →
        mapGet res.valueToFile (recordRhs line) =
          cutSnippet ctx.searchDest pfx (recordLhs line)) ∧
      (outputRecords stdout = [] → res = ⟨[], []⟩) := by
  have hix := indexLines_eq ctx.searchDest pfx (Split stdout [Char.ofNat 10]) [] [] hlong
  have hcall : prefixToResults sh ctx pfx =
      .ok ((⟨(outputRecords stdout).map recordRhs,
          ((outputRecords stdout).map
            (fun line => (recordRhs line, cutSnippet ctx.searchDest pfx (recordLhs line)))).reverse⟩,
        none),
        { ctx with
          commands := ctx.commands ++ [searchCommand pfx ctx.searchDest]
          prefixCache := (pfx, ⟨(outputRecords stdout).map recordRhs,
            ((outputRecords stdout).map
              (fun line =>
                (recordRhs line, cutSnippet ctx.searchDest pfx (recordLhs line)))).reverse⟩) ::
            ctx.prefixCache }) := by
    unfold prefixToResults
    rw [hmiss]
    simp only [commandVerboseOnErr, commandWithOutput, hsh]
    rw [if_neg (split_length_ne_zero stdout [Char.ofNat 10]), hix]
    simp [outputRecords]
  refine ⟨_, _, hcall, rfl, rfl, ?_, ?_⟩
  · intro k line hk hlast
    unfold mapGet
    simp only
    rw [lookup_reverse_last _ k (recordRhs line)
      (cutSnippet ctx.searchDest pfx (recordLhs line))]
    · rfl
    · rw [List.getElem?_map, hk]
      rfl
    · intro m p hm hp
      rw [List.getElem?_map] at hp
      cases hl : (outputRecords stdout)[m]? with
      | none => rw [hl] at hp; simp at hp
      | some later =>
        rw [hl] at hp
        simp only [Option.map_some', Option.some.injEq] at hp
        rw [← hp]
        exact hlast m later hm hl
  · intro hnil
    rw [hnil]
    rfl

/-- C7 (amended) on the catalog output: tokens `100-200`, `250`, `300-400` from
the files `gbbct1.seq`, `gbbct2.seq`, `gbbct3.seq`. -/
theorem prefixToResults_builds_witness :
    (emptyCtx.prefixCache.lookup "AB".toList = none ∧
      catalogShell emptyCtx.commands.length (searchCommand "AB".toList emptyCtx.searchDest) =
        (catalogStdout, [], none) ∧
      (∀ line, line ∈ outputRecords catalogStdout →
        emptyCtx.searchDest.length + 1 + ("AB".toList.length + 1) ≤ (recordLhs line).length)) ∧
    (outputRecords catalogStdout).map recordRhs =
      ["100-200".toList, "250".toList, "300-400".toList] ∧
    (outputRecords catalogStdout).map
        (fun line => cutSnippet emptyCtx.searchDest "AB".toList (recordLhs line)) =
      ["gbbct1.seq".toList, "gbbct2.seq".toList, "gbbct3.seq".toList] ∧
    ∃ res ctx1, prefixToResults catalogShell emptyCtx "AB".toList = .ok ((res, none), ctx1) ∧
      ctx1.prefixCache = ("AB".toList, res) :: emptyCtx.prefixCache ∧
      res.accessionNums = (outputRecords catalogStdout).map recordRhs ∧
      (∀ (k : Nat) (line : Str), (outputRecords catalogStdout)[k]? = some line →
        (∀ (m : Nat) (later : Str), k < m → (outputRecords catalogStdout)[m]? = some later →
          recordRhs later ≠ recordRhs line) →
        mapGet res.valueToFile (recordRhs line) =
          cutSnippet emptyCtx.searchDest "AB".toList (recordLhs line)) ∧
      (outputRecords catalogStdout = [] → res = ⟨[], []⟩) :=
  ⟨⟨by decide, by decide, by decide⟩, by decide, by decide,
    prefixToResults_builds catalogShell emptyCtx "AB".toList catalogStdout [] (by decide)
      (by decide) (by decide)⟩

theorem take_ne_gbbct (k : Nat) (hk : k ≤ 10) :
    "/gbbct1.seq:AB".toList.take k ≠ "gbbct1.seq".toList := by
  interval_cases k <;> decide

/-- C7 (counterexample): for the record `/catalog/gbbct1.seq:AB: 100-200` that
the search utility prints for the prefix `AB` under `/catalog`, the index binds
the token to `gbbct1.seq`, which is not the left-hand side with the catalog
root and a suffix `/AB.<ext>` stripped, whatever the extension; and for a
record `/catalog/sub/AB.seq: 7`, shaped as the specification describes, the
index binds the token to `sub/AB.` where the stripping leaves `/sub`. -/
theorem sourceFile_not_spec_stripped :
    prefixToResults catalogShell emptyCtx "AB".toList = .ok ((catalogIndex, none), builtCtx) ∧
    mapGet catalogIndex.valueToFile "100-200".toList = "gbbct1.seq".toList ∧
    (∀ ext, specSourceFile "/catalog".toList "AB".toList ext "/catalog/gbbct1.seq:AB".toList ≠
      "gbbct1.seq".toList) ∧
    prefixToResults specShapedShell emptyCtx "AB".toList =
      .ok ((⟨["7".toList], [("7".toList, "sub/AB.".toList)]⟩, none),
        ⟨"/catalog".toList, [("AB".toList, ⟨["7".toList], [("7".toList, "sub/AB.".toList)]⟩)],
          [], [searchCommand "AB".toList "/catalog".toList]⟩) ∧
    specSourceFile "/catalog".toList "AB".toList "seq".toList "/catalog/sub/AB.seq".toList =
      "/sub".toList := by
  refine ⟨by decide, by decide, ?_, by decide, by decide⟩
  intro ext
  have htrim : trimPrefix "/catalog/gbbct1.seq:AB".toList "/catalog".toList =
      "/gbbct1.seq:AB".toList := by decide
  unfold specSourceFile
  rw [htrim]
  unfold trimSuffix
  split
  · rename_i hsuf
    have hlen : ("/".toList ++ "AB".toList ++ ".".toList ++ ext).length ≤
        "/gbbct1.seq:AB".toList.length :=
      (List.isSuffixOf_iff_suffix.mp hsuf).length_le
    apply take_ne_gbbct
    simp only [List.length_append] at hlen ⊢
    have h14 : "/gbbct1.seq:AB".toList.length = 14 := by decide
    have h1 : "/".toList.length = 1 := by decide
    have h2 : "AB".toList.length = 2 := by decide
    have h3 : ".".toList.length = 1 := by decide
    omega
  · decide

theorem searchLoop_defined (nums : List Str) (t : Int)
    (hkeys : ∀ tok, tok ∈ nums → tokenKey tok ≠ none) :
    ∀ (fuel i j : Nat), i ≤ j → j ≤ nums.length → j - i ≤ fuel →
      ∃ r, searchLoop nums t fuel i j = .ok r ∧ i ≤ r ∧ r ≤ j := by
  intro fuel
  induction fuel with
  | zero =>
    intro i j hij hj hf
    have : i = j := by omega
    subst this
    exact ⟨i, by simp [searchLoop], le_refl _, le_refl _⟩
  | succ fuel ih =>
    intro i j hij hj hf
    by_cases hlt : i < j
    · have hlen : i + (j - i) / 2 < nums.length := by omega
      have hget : nums[i + (j - i) / 2]? = some nums[i + (j - i) / 2] :=
        List.getElem?_eq_getElem hlen
      rw [searchLoop_succ nums t fuel i j hlt _ hget]
      cases hk : tokenKey nums[i + (j - i) / 2] with
      | none => exact absurd hk (hkeys _ (List.getElem_mem hlen))
      | some k =>
        simp only
        by_cases hcmp : k < t
        · rw [if_pos hcmp]
          obtain ⟨r, hr, h1, h2⟩ := ih (i + (j - i) / 2 + 1) j (by omega) hj (by omega)
          exact ⟨r, hr, by omega, h2⟩
        · rw [if_neg hcmp]
          obtain ⟨r, hr, h1, h2⟩ := ih i (i + (j - i) / 2) (by omega) (by omega) (by omega)
          exact ⟨r, hr, h1, by omega⟩
    · have : i = j := by omega
      subst this
      exact ⟨i, by simp [searchLoop], le_refl _, le_refl _⟩

theorem formatResult_ok (res : prefixResult) (i : Nat)
    (hfiles : ∀ tok, tok ∈ res.accessionNums → 4 ≤ (mapGet res.valueToFile tok).length) :
    ∃ out, formatResult res i = .ok out := by
  unfold formatResult
  by_cases hc : i ≠ 0 ∧ i < res.accessionNums.length
  · rw [if_pos hc, List.getElem?_eq_getElem hc.2]
    simp only
    rw [if_neg (by
      have := hfiles _ (List.getElem_mem hc.2)
      omega)]
    exact ⟨_, rfl⟩
  · rw [if_neg hc]
    exact ⟨_, rfl⟩

/-- On an index whose tokens all convert and whose file snippets all have at
least 4 characters the search returns, for every target. -/
theorem searchIndex_ok (res : prefixResult) (t : Int)
    (hwf : ∀ tok, tok ∈ res.accessionNums →
      tokenKey tok ≠ none ∧ 4 ≤ (mapGet res.valueToFile tok).length) :
    ∃ out, searchIndex res t = .ok out := by
  obtain ⟨r, hr, _, _⟩ := searchLoop_defined res.accessionNums t (fun tok h => (hwf tok h).1)
    res.accessionNums.length 0 res.accessionNums.length (Nat.zero_le _) (le_refl _) (by omega)
  obtain ⟨out, hout⟩ := formatResult_ok res r (fun tok h => (hwf tok h).2)
  refine ⟨out, ?_⟩
  unfold searchIndex
  simp only [hr, hout]

/-- C10 (amended): in the loop of `accessionSearch` the midpoint satisfies
`i <= h < j <= len` for every token list, so the loop never indexes out of
range and ends within `len` iterations; an index-build error is propagated;
and on an index whose tokens all convert and whose file snippets all have at
least 4 characters, `accessionSearch` returns a result (Found or NotFound)
without error, for every target. -/
theorem accessionSearch_completes (sh : Shell) (ctx : Context) (pfx : Str) (target : Int) :
    (∀ (nums : List Str) (i j : Nat), i < j → j ≤ nums.length →
      i ≤ i + (j - i) / 2 ∧ i + (j - i) / 2 < j ∧ nums[i + (j - i) / 2]? ≠ none) ∧
    (∀ nums : List Str, searchLoop nums target nums.length 0 nums.length ≠ .crash ∧
      searchLoop nums target nums.length 0 nums.length ≠ .timeout) ∧
    (∀ res err ctx1, prefixToResults sh ctx pfx = .ok ((res, some err), ctx1) →
      accessionSearch sh ctx pfx target =
        .ok (([], some (handle "Error in getting file results for the prefix.".toList err)),
          ctx1)) ∧
    (∀ res ctx1, prefixToResults sh ctx pfx = .ok ((res, none), ctx1) →
      (∀ tok, tok ∈ res.accessionNums →
        tokenKey tok ≠ none ∧ 4 ≤ (mapGet res.valueToFile tok).length) →
      ∃ out, accessionSearch sh ctx pfx target = .ok ((out, none), ctx1)) := by
  refine ⟨?_, ?_, ?_, ?_⟩
  · intro nums i j hij hj
    refine ⟨by omega, by omega, ?_⟩
    rw [List.getElem?_eq_getElem (by omega)]
    simp
  · intro nums
    rcases searchLoop_total nums target nums.length 0 nums.length (Nat.zero_le _) (le_refl _)
      (by omega) with h | ⟨r, hr, _, _⟩
    · rw [h]
      exact ⟨by simp, by simp⟩
    · rw [hr]
      exact ⟨by simp, by simp⟩
  · intro res err ctx1 hbuild
    unfold accessionSearch
    rw [hbuild]
  · intro res ctx1 hbuild hwf
    obtain ⟨out, hout⟩ := searchIndex_ok res target hwf
    refine ⟨out, ?_⟩
    unfold accessionSearch
    rw [hbuild]
    simp only [hout]

/-- C10 (amended) on the index built from the catalog output, with the target
225. -/
theorem accessionSearch_completes_witness :
    (prefixToResults catalogShell emptyCtx "AB".toList = .ok ((catalogIndex, none), builtCtx) ∧
      (∀ tok, tok ∈ catalogIndex.accessionNums →
        tokenKey tok ≠ none ∧ 4 ≤ (mapGet catalogIndex.valueToFile tok).length)) ∧
    ∃ out, accessionSearch catalogShell emptyCtx "AB".toList 225 = .ok ((out, none), builtCtx) :=
  ⟨⟨by decide, by decide⟩,
    (accessionSearch_completes catalogShell emptyCtx "AB".toList 225).2.2.2 catalogIndex builtCtx
      (by decide) (by decide)⟩

/-- C10 (counterexample): `prefixToResults` builds an index from an output whose
second record carries the token `12a`, and `accessionSearch` then ends in
`log.Fatal` when the search reads that token; it builds an index from records
of a catalog file named `f`, and `accessionSearch` then panics on the
4-character trim of that name. -/
theorem accessionSearch_aborts :
    prefixToResults badTokenShell emptyCtx "AB".toList =
      .ok ((⟨["100".toList, "12a".toList],
          [("12a".toList, "gbbct1.seq".toList), ("100".toList, "gbbct1.seq".toList)]⟩, none),
        ⟨"/catalog".toList,
          [("AB".toList, ⟨["100".toList, "12a".toList],
            [("12a".toList, "gbbct1.seq".toList), ("100".toList, "gbbct1.seq".toList)]⟩)],
          [], [searchCommand "AB".toList "/catalog".toList]⟩) ∧
    accessionSearch badTokenShell emptyCtx "AB".toList 150 = .fatal ∧
    prefixToResults shortNameShell emptyCtx "AB".toList =
      .ok ((⟨["100".toList, "250".toList],
          [("250".toList, "f".toList), ("100".toList, "f".toList)]⟩, none),
        ⟨"/catalog".toList,
          [("AB".toList, ⟨["100".toList, "250".toList],
            [("250".toList, "f".toList), ("100".toList, "f".toList)]⟩)],
          [], [searchCommand "AB".toList "/catalog".toList]⟩) ∧
    accessionSearch shortNameShell emptyCtx "AB".toList 200 = .crash := by
  decide

/-- C5 (failing input): the catalog file `gb-new1.seq` holds the point tokens
100 and 250. Both endpoints of the request `240-250` resolve to the point token
`250`, which contains no `-`, yet `findRange` takes the collapse branch and
writes the single line for the whole range, because the `-` of the file name is
part of the result text that line 100 tests. -/
theorem findRange_collapses_on_point :
    prefixToResults hyphenShell emptyCtx "AB".toList = .ok ((hyphenIndex, none), hyphenCtx) ∧
    accessionSearch hyphenShell hyphenCtx "AB".toList 240 =
      .ok (("250           | gb-new1".toList, none), hyphenCtx) ∧
    accessionSearch hyphenShell hyphenCtx "AB".toList 250 =
      .ok (("250           | gb-new1".toList, none), hyphenCtx) ∧
    Contains "250".toList "-".toList = false ∧
    findRange 11 hyphenShell emptyCtx "AB".toList "240-250".toList =
      .ok (none, { hyphenCtx with
        outFile := ["AB240-250       | 250           | gb-new1".toList] }) := by
  decide

theorem isPrefixOf_append (sep xs ys : Str) (h : sep.isPrefixOf xs = true) :
    sep.isPrefixOf (xs ++ ys) = true := by
  rw [List.isPrefixOf_iff_prefix] at h ⊢
  exact h.trans (List.prefix_append xs ys)

theorem contains_append_left (xs ys sep : Str) (hsep : sep ≠ [])
    (h : Contains xs sep = true) : Contains (xs ++ ys) sep = true := by
  induction xs with
  | nil =>
    cases sep with
    | nil => exact absurd rfl hsep
    | cons a as => simp [Contains] at h
  | cons c cs ih =>
    simp only [List.cons_append, Contains, Bool.or_eq_true] at h ⊢
    rcases h with h | h
    · exact Or.inl (isPrefixOf_append sep (c :: cs) ys h)
    · exact Or.inr (ih h)

theorem contains_found (tok file : Str) (h : Contains tok "-".toList = true) :
    Contains (padRight 13 tok ++ " | ".toList ++ file) "-".toList = true := by
  unfold padRight
  rw [List.append_assoc, List.append_assoc]
  exact contains_append_left tok _ "-".toList (by decide) h

theorem findSingleValue_hit (sh : Shell) (ctx : Context) (pfx : Str) (idx : prefixResult)
    (v : Int) (hcache : ctx.prefixCache.lookup pfx = some idx)
    (hwf : ∀ tok, tok ∈ idx.accessionNums →
      tokenKey tok ≠ none ∧ 4 ≤ (mapGet idx.valueToFile tok).length)
    (hlo : minInt ≤ v) (hhi : v ≤ maxInt) :
    findSingleValue sh ctx pfx (Itoa v) = .ok (none, writeLine (lookupLine pfx idx v) ctx) := by
  obtain ⟨out, hout⟩ := searchIndex_ok idx v hwf
  unfold findSingleValue lookupLine
  rw [Atoi_Itoa v hlo hhi]
  simp only [accessionSearch_hit sh ctx pfx idx v hcache, hout]
  by_cases he : out = []
  · simp [he]
  · simp [he]

theorem rangePiece_hit (sh : Shell) (ctx : Context) (pfx input : Str) (idx : prefixResult)
    (num : Int) (res : Str) (hcache : ctx.prefixCache.lookup pfx = some idx)
    (hnum : Atoi input = .ok num) (hres : searchIndex idx num = .ok res) :
    rangePiece sh ctx pfx input = .ok ((num, res, none), ctx) := by
  unfold rangePiece
  rw [hnum]
  simp only [accessionSearch_hit sh ctx pfx idx num hcache, hres]

theorem incInt_of_lt (i : Int) (h : i < maxInt) : incInt i = i + 1 := by
  unfold incInt
  rw [if_neg (by omega)]

theorem range_shift (f : Int → Str) (i : Int) (n : Nat) :
    f i :: (List.range n).map (fun k => f (i + 1 + (k : Nat))) =
      (List.range (n + 1)).map (fun k => f (i + (k : Nat))) := by
  rw [List.range_succ_eq_map, List.map_cons, List.map_map]
  congr 1
  · simp
  · apply List.map_congr_left
    intro k _
    simp only [Function.comp, Nat.cast_succ]
    congr 1
    omega

/-- The enumeration loop of `findRange` on a cached index whose lookups all
return: below the largest `int` it ends after `endNum + 1 - i` iterations and
has written the lookup line of each value from `i` to `endNum`, in ascending
order. -/
theorem findRangeLoop_lines (sh : Shell) (pfx : Str) (idx : prefixResult) (endNum : Int)
    (hwf : ∀ tok, tok ∈ idx.accessionNums →
      tokenKey tok ≠ none ∧ 4 ≤ (mapGet idx.valueToFile tok).length)
    (hend : endNum < maxInt) :
    ∀ (fuel : Nat) (i : Int) (err : Option GoError) (ctx : Context),
      ctx.prefixCache.lookup pfx = some idx → minInt ≤ i →
      (endNum + 1 - i).toNat ≤ fuel →
      findRangeLoop sh pfx endNum fuel i err ctx =
        .ok (if i ≤ endNum then none else err,
          { ctx with outFile := ctx.outFile ++
            (List.range (endNum + 1 - i).toNat).map (fun k => lookupLine pfx idx (i + (k : Nat))) })
    := by
  intro fuel
  induction fuel with
  | zero =>
    intro i err ctx _ _ hf
    have hn : (endNum + 1 - i).toNat = 0 := by omega
    have hi : ¬ i ≤ endNum := by omega
    simp [findRangeLoop, hn, hi]
  | succ fuel ih =>
    intro i err ctx hcache hlo hf
    unfold findRangeLoop
    by_cases hi : i ≤ endNum
    · rw [if_pos hi, if_pos hi]
      rw [findSingleValue_hit sh ctx pfx idx i hcache hwf hlo (by omega)]
      simp only
      rw [incInt_of_lt i (by omega)]
      rw [ih (i + 1) none (writeLine (lookupLine pfx idx i) ctx) hcache (by omega) (by omega)]
      have hn : (endNum + 1 - i).toNat = (endNum + 1 - (i + 1)).toNat + 1 := by omega
      rw [hn, ← range_shift (lookupLine pfx idx) i]
      simp [writeLine]
    · rw [if_neg hi, if_neg hi]
      have hn : (endNum + 1 - i).toNat = 0 := by omega
      simp [hn]

/-- With the end of the range at the largest `int` the loop counter wraps
around instead of passing the end: the enumeration loop never finishes,
whatever the fuel. -/
theorem findRangeLoop_maxInt_timeout (sh : Shell) (pfx : Str) (idx : prefixResult)
    (hwf : ∀ tok, tok ∈ idx.accessionNums →
      tokenKey tok ≠ none ∧ 4 ≤ (mapGet idx.valueToFile tok).length) :
    ∀ (fuel : Nat) (i : Int) (err : Option GoError) (ctx : Context),
      ctx.prefixCache.lookup pfx = some idx → minInt ≤ i → i ≤ maxInt →
      findRangeLoop sh pfx maxInt fuel i err ctx = .timeout := by
  intro fuel
  induction fuel with
  | zero =>
    intro i err ctx _ _ hhi
    simp [findRangeLoop, hhi]
  | succ fuel ih =>
    intro i err ctx hcache hlo hhi
    unfold findRangeLoop
    rw [if_pos hhi, findSingleValue_hit sh ctx pfx idx i hcache hwf hlo hhi]
    simp only
    refine ih (incInt i) none _ hcache ?_ ?_
    · unfold incInt
      split
      · exact le_refl _
      · omega
    · unfold incInt
      split
      · unfold minInt maxInt
        omega
      · omega

/-- The two branches of `findRange` on a cached index whose lookups all return,
for a request whose endpoints parse to `a` and `b` and resolve to `startRes`
and `endRes`. When both results are the same Found result of a range token, one
line is written. When the test of source line 100 fails and `b` is below the
largest `int`, the single-value lookup lines of `a`, `a + 1`, ..., `b` are
written in ascending order: `b - a + 1` lines when `a ≤ b`. -/
theorem findRange_branches (sh : Shell) (ctx : Context) (pfx toFind part0 part1 : Str)
    (rest : List Str) (idx : prefixResult) (a b : Int) (startRes endRes : Str)
    (hcache : ctx.prefixCache.lookup pfx = some idx)
    (hwf : ∀ tok, tok ∈ idx.accessionNums →
      tokenKey tok ≠ none ∧ 4 ≤ (mapGet idx.valueToFile tok).length)
    (hsplit : Split toFind "-".toList = part0 :: part1 :: rest)
    (ha : Atoi part0 = .ok a) (hb : Atoi part1 = .ok b)
    (hra : searchIndex idx a = .ok startRes) (hrb : searchIndex idx b = .ok endRes) :
    (∀ tok file, Contains tok "-".toList = true →
      startRes = padRight 13 tok ++ " | ".toList ++ file → endRes = startRes → ∀ fuel,
      findRange fuel sh ctx pfx toFind =
        .ok (none, writeLine (pfx ++ padRight 13 toFind ++ " | ".toList ++ startRes) ctx)) ∧
    (¬ (Contains startRes "-".toList = true ∧ startRes = endRes) → b < maxInt →
      ∀ fuel, (b + 1 - a).toNat ≤ fuel →
      findRange fuel sh ctx pfx toFind =
        .ok (none, { ctx with outFile := ctx.outFile ++
          (List.range (b + 1 - a).toNat).map (fun k => lookupLine pfx idx (a + (k : Nat))) }) ∧
      (a ≤ b → (((List.range (b + 1 - a).toNat).map
        (fun k => lookupLine pfx idx (a + (k : Nat)))).length : Int) = b - a + 1) ∧
      (∀ k : Nat, k < (b + 1 - a).toNat →
        findSingleValue sh ctx pfx (Itoa (a + (k : Nat))) =
          .ok (none, writeLine (lookupLine pfx idx (a + (k : Nat))) ctx))) := by
  have hcollapse : (Contains startRes "-".toList = true ∧ startRes = endRes) → ∀ fuel,
      findRange fuel sh ctx pfx toFind =
        .ok (none, writeLine (pfx ++ padRight 13 toFind ++ " | ".toList ++ startRes) ctx) := by
    intro hc fuel
    unfold findRange
    simp only [hsplit, List.getElem?_cons_zero, List.getElem?_cons_succ,
      rangePiece_hit sh ctx pfx part0 idx a startRes hcache ha hra,
      rangePiece_hit sh ctx pfx part1 idx b endRes hcache hb hrb]
    rw [if_pos hc]
  have harange := Atoi_range part0 a ha
  have hbrange := Atoi_range part1 b hb
  refine ⟨?_, ?_⟩
  · intro tok file htok hstart hend fuel
    exact hcollapse ⟨by rw [hstart]; exact contains_found tok file htok, hend.symm⟩ fuel
  · intro hnc hbmax fuel hfuel
    refine ⟨?_, ?_, ?_⟩
    · unfold findRange
      simp only [hsplit, List.getElem?_cons_zero, List.getElem?_cons_succ,
        rangePiece_hit sh ctx pfx part0 idx a startRes hcache ha hra,
        rangePiece_hit sh ctx pfx part1 idx b endRes hcache hb hrb]
      rw [if_neg hnc]
      rw [findRangeLoop_lines sh pfx idx b hwf hbmax fuel a none ctx hcache harange.1 hfuel]
      simp
    · intro hab
      simp only [List.length_map, List.length_range]
      omega
    · intro k hk
      exact findSingleValue_hit sh ctx pfx idx (a + (k : Nat)) hcache hwf (by omega) (by omega)

/-- The request `248-251` on the scenario index: the endpoints resolve to
different tokens and four lines are written, in ascending order. -/
theorem findRange_enumerates_scenario :
    findRange 4 idleShell scenarioCtx "AB".toList "248-251".toList =
      .ok (none, { scenarioCtx with outFile :=
        ["AB248           | 250           | fileB".toList,
         "AB249           | 250           | fileB".toList,
         "AB250           | 250           | fileB".toList,
         "AB251           | 300-400       | fileC".toList] }) := by
  decide

/-- The request `120-180` on the scenario index extended by a leading token:
both endpoints resolve to the range token `100-200` and one line is written. -/
theorem findRange_collapses_scenario :
    findRange 0 idleShell
      ⟨"/catalog".toList,
        [("AB".toList, mkIndex (("1".toList, "file0.seq".toList) :: scenarioRecords))], [], []⟩
      "AB".toList "120-180".toList =
      .ok (none,
        ⟨"/catalog".toList,
          [("AB".toList, mkIndex (("1".toList, "file0.seq".toList) :: scenarioRecords))],
          ["AB120-180       | 100-200       | fileA".toList], []⟩) := by
  decide

/-- C6 (failing input): with the index of `hyphenStdout` in the cache, the
endpoints of the request `240-250` parse and resolve without error, both to
the point token `250`, so the resolved tokens are not Range-kind; yet
`findRange` writes one line, not the `250 - 240 + 1 = 11` single-value lines,
the first of which would be the lookup line of 240. -/
theorem findRange_point_range_one_line :
    rangePiece hyphenShell hyphenCtx "AB".toList "240".toList =
      .ok ((240, "250           | gb-new1".toList, none), hyphenCtx) ∧
    rangePiece hyphenShell hyphenCtx "AB".toList "250".toList =
      .ok ((250, "250           | gb-new1".toList, none), hyphenCtx) ∧
    tokenSpan "250".toList = some (250, 250) ∧
    Contains "250".toList "-".toList = false ∧
    findRange 11 hyphenShell hyphenCtx "AB".toList "240-250".toList =
      .ok (none, { hyphenCtx with
        outFile := ["AB240-250       | 250           | gb-new1".toList] }) ∧
    (([["AB240-250       | 250           | gb-new1".toList]].length : Int) ≠ 250 - 240 + 1) ∧
    findSingleValue hyphenShell hyphenCtx "AB".toList (Itoa 240) =
      .ok (none, { hyphenCtx with
        outFile := ["AB240           | 250           | gb-new1".toList] }) := by
  refine ⟨by decide, by decide, by decide, by decide, by decide, by decide, by decide⟩

end NcbiToolSearch
